import Mathlib

set_option maxRecDepth 40000

/-!
Verification of the version resolution & update engine of
tf-update-module-versions (Go).  The Go sources are shallowly embedded:
strings become `List Char`, machine integers become `Nat`/`Int`,
fallible functions return `Option`/`Except`, file and map state is passed
explicitly.  Loops that skip ahead by a computed amount are written with a
fuel argument (initialised to a length bound) so that every definition is
executable by the kernel.
-/

namespace TfUpdate

/-- Go strings, embedded as lists of characters (the sources only ever deal
with ASCII data, so byte indexing and char indexing agree). -/
abbrev Str := List Char

/-- Convenience: literal conversion. -/
def str (s : String) : Str := s.toList

/-- Character class of Go's RE2 `\s` (`[\t\n\f\r ]`). -/
def regexWs (c : Char) : Bool :=
  c = ' ' || c = '\t' || c = '\n' || c = '\x0c' || c = '\r'

/-- Character class of Go's `unicode.IsSpace` restricted to ASCII, used by
`strings.TrimSpace` and `strings.Fields`. -/
def goIsSpace (c : Char) : Bool :=
  c = ' ' || c = '\t' || c = '\n' || c = '\x0b' || c = '\x0c' || c = '\r'

/-- `strings.TrimSpace`. -/
def goTrimSpace (s : Str) : Str :=
  ((s.dropWhile goIsSpace).reverse.dropWhile goIsSpace).reverse

/-- `strings.Fields`: split around runs of whitespace, no empty fields.
`acc` holds the characters of the current field, in reverse. -/
def fieldsGo : Str → Str → List Str
  | [], acc => if acc = [] then [] else [acc.reverse]
  | c :: rest, acc =>
    if goIsSpace c then
      if acc = [] then fieldsGo rest [] else acc.reverse :: fieldsGo rest []
    else fieldsGo rest (c :: acc)

/-- `strings.Fields`. -/
def goFields (s : Str) : List Str := fieldsGo s []

/-- `strings.Count s sub` for a single-character `sub` (the only use in this
code base is counting `'.'`). -/
def countChar (s : Str) (c : Char) : Nat := s.count c

def isDigitChar (c : Char) : Bool := '0' ≤ c ∧ c ≤ '9'

/-- Value of a string of decimal digits. -/
def natOfDigits (ds : Str) : Nat :=
  ds.foldl (fun acc c => acc * 10 + (c.toNat - 48)) 0

/-! ## Semantic versions (model of the Masterminds/semver v3 dependency)

`semver.Version` keeps the numeric triple plus the raw pre-release and
build-metadata text.  (`uint64` overflow of the Go library is not modelled;
the numbers are `Nat`.) -/

structure SemVer where
  major : Nat
  minor : Nat
  patch : Nat
  pre : Str
  meta : Str
deriving DecidableEq, Repr

/-- Characters allowed in pre-release / metadata segments:
`[0-9A-Za-z-]`. -/
def semverIdentChar (c : Char) : Bool :=
  isDigitChar c || ('a' ≤ c && c ≤ 'z') || ('A' ≤ c && c ≤ 'Z') || c = '-'

/-- One dot-separated pre-release segment is valid: nonempty, only allowed
characters, and an all-numeric segment has no leading zero
(`validatePrerelease`). -/
def validPreSegment (seg : Str) : Bool :=
  seg ≠ [] && seg.all semverIdentChar &&
    (if seg.all isDigitChar then decide (seg.length ≤ 1) || decide (seg.head? ≠ some '0') else true)

/-- One dot-separated metadata segment is valid (`validateMetadata`:
no leading-zero restriction). -/
def validMetaSegment (seg : Str) : Bool :=
  seg ≠ [] && seg.all semverIdentChar

/-- Parse one numeric component (`[0-9]+`), returning value and remainder. -/
def parseNumComponent (s : Str) : Option (Nat × Str) :=
  let ds := s.takeWhile isDigitChar
  if ds = [] then none else some (natOfDigits ds, s.drop ds.length)

/-- Parse an optional `.([0-9]+)` group. -/
def parseDotNum (s : Str) : Option (Nat × Str) :=
  match s with
  | '.' :: rest =>
    match parseNumComponent rest with
    | some (n, r) => some (n, r)
    | none => none
  | _ => some (0, s)

/-- `semver.NewVersion` (the lenient constructor): optional `v` prefix,
one to three numeric components, optional `-prerelease`, optional
`+metadata`, anchored at both ends. -/
def NewVersion (s0 : Str) : Option SemVer :=
  let s := match s0 with
    | 'v' :: rest => rest
    | _ => s0
  match parseNumComponent s with
  | none => none
  | some (maj, r1) =>
    match parseDotNum r1 with
    | none => none
    | some (min0, r2) =>
      match parseDotNum r2 with
      | none => none
      | some (pat, r3) =>
        let takePre : Option (Str × Str) :=
          match r3 with
          | '-' :: rest =>
            let p := rest.takeWhile (fun c => c ≠ '+')
            if (p.splitOn '.').all validPreSegment then some (p, rest.drop p.length)
            else none
          | _ => some ([], r3)
        match takePre with
        | none => none
        | some (pre, r4) =>
          match r4 with
          | [] => some ⟨maj, min0, pat, pre, []⟩
          | '+' :: rest =>
            if rest ≠ [] && (rest.splitOn '.').all validMetaSegment then
              some ⟨maj, min0, pat, pre, rest⟩
            else none
          | _ => none

/-- Lexicographic byte comparison (Go `s > o` on strings). -/
def lexGt : Str → Str → Bool
  | _ :: _, [] => true
  | [], _ => false
  | a :: s, b :: o => if a = b then lexGt s o else decide (b < a)

/-- `strconv.ParseInt` restricted to its use on pre-release segments:
an optional sign followed by one or more digits. -/
def parseGoInt (s : Str) : Option Int :=
  match s with
  | '-' :: ds => if ds ≠ [] && ds.all isDigitChar then some (-(natOfDigits ds : Int)) else none
  | '+' :: ds => if ds ≠ [] && ds.all isDigitChar then some ((natOfDigits ds : Int)) else none
  | ds => if ds ≠ [] && ds.all isDigitChar then some ((natOfDigits ds : Int)) else none

/-- `comparePrePart`. -/
def comparePrePart (s o : Str) : Int :=
  if s = o then 0
  else if s = [] then (if o ≠ [] then -1 else 1)
  else if o = [] then (if s ≠ [] then 1 else -1)
  else
    match parseGoInt s, parseGoInt o with
    | some si, some oi => if oi < si then 1 else -1
    | some _, none => -1
    | none, some _ => 1
    | none, none => if lexGt s o then 1 else -1

/-- `comparePrerelease`: compare dot-separated segment lists, padding the
shorter list with empty segments. -/
def comparePreLists : List Str → List Str → Int
  | [], [] => 0
  | [], o :: os => if comparePrePart [] o = 0 then comparePreLists [] os else comparePrePart [] o
  | s :: ss, [] => if comparePrePart s [] = 0 then comparePreLists ss [] else comparePrePart s []
  | s :: ss, o :: os => if comparePrePart s o = 0 then comparePreLists ss os else comparePrePart s o

def compareSegment (a b : Nat) : Int :=
  if a < b then -1 else if b < a then 1 else 0

/-- `semver.Version.Compare`: numeric triple first, then pre-release
(a release sorts above any of its pre-releases); build metadata ignored. -/
def SemVer.compare (v o : SemVer) : Int :=
  if compareSegment v.major o.major ≠ 0 then compareSegment v.major o.major
  else if compareSegment v.minor o.minor ≠ 0 then compareSegment v.minor o.minor
  else if compareSegment v.patch o.patch ≠ 0 then compareSegment v.patch o.patch
  else
    if v.pre = [] ∧ o.pre = [] then 0
    else if v.pre = [] then 1
    else if o.pre = [] then -1
    else comparePreLists (v.pre.splitOn '.') (o.pre.splitOn '.')

/-- The character for one decimal digit. -/
def digitChar (n : Nat) : Char :=
  if n = 0 then '0' else if n = 1 then '1' else if n = 2 then '2'
  else if n = 3 then '3' else if n = 4 then '4' else if n = 5 then '5'
  else if n = 6 then '6' else if n = 7 then '7' else if n = 8 then '8' else '9'

/-- Decimal digits of a `Nat`, via fuel (kernel-reducible). -/
def natDigitsGo : Nat → Nat → Str → Str
  | 0, _, acc => acc
  | fuel + 1, n, acc =>
    let d := digitChar (n % 10)
    if n < 10 then d :: acc else natDigitsGo fuel (n / 10) (d :: acc)

def natDigits (n : Nat) : Str := natDigitsGo (n + 1) n []

/-- `semver.Version.String()`: canonical rendering
`major.minor.patch[-pre][+meta]`. -/
def SemVer.render (v : SemVer) : Str :=
  natDigits v.major ++ '.' :: natDigits v.minor ++ '.' :: natDigits v.patch ++
    (if v.pre = [] then [] else '-' :: v.pre) ++
    (if v.meta = [] then [] else '+' :: v.meta)

/-- Model of `semver.NewVersion(fmt.Sprintf("%d.%d.%d", a, b, c))`, which
always succeeds and yields exactly the plain triple. -/
def sprintfVersion (a b c : Nat) : SemVer := ⟨a, b, c, [], []⟩

/-! ## Constraint engine (`internal/version/constraints.go`) -/

/-- A single version constraint (`version.Constraint`):
operator, parsed version, and the original (trimmed) expression kept for
precision detection. -/
structure Constraint where
  operator : Str
  version : SemVer
  original : Str
deriving DecidableEq, Repr

/-- The ordered alternation `(=|!=|>=|>|<=|<|~>)` of the operator regex;
Go's regexp tries alternatives left to right. -/
def constraintOps : List Str :=
  [str "=", str "!=", str ">=", str ">", str "<=", str "<", str "~>"]

/-- `ParseConstraint`: trim, then match `^(op)\s*(.+)$` and parse the
version part; any failure is an error (`none`). -/
def ParseConstraint (expr0 : Str) : Option Constraint :=
  let expr := goTrimSpace expr0
  if expr = [] then none
  else
    match constraintOps.find? (fun op => op.isPrefixOf expr) with
    | none => none
    | some operator =>
      let rest := (expr.drop operator.length).dropWhile regexWs
      if rest = [] then none
      else
        let versionStr := goTrimSpace rest
        match NewVersion versionStr with
        | none => none
        | some version => some ⟨operator, version, expr⟩

/-- `Constraint.matchesPessimistic`: `v >= c.Version`, and `v` below an
upper bound chosen from the precision of the original expression, read off
the last whitespace-separated field (`strings.Fields`); when the original
has fewer than two fields the code falls back to patch-level precision. -/
def Constraint.matchesPessimistic (c : Constraint) (version : SemVer) : Bool :=
  if version.compare c.version < 0 then false
  else
    let major := c.version.major
    let minor := c.version.minor
    let parts := goFields c.original
    let upperBound :=
      if parts.length < 2 then sprintfVersion major (minor + 1) 0
      else
        let versionPart := parts.getLastD []
        let versionDots := countChar versionPart '.'
        if versionDots = 0 then sprintfVersion (major + 1) 0 0
        else sprintfVersion major (minor + 1) 0
    decide (version.compare upperBound < 0)

/-- `Constraint.Matches`. -/
def Constraint.Matches (c : Constraint) (version : SemVer) : Bool :=
  let cmp := version.compare c.version
  if c.operator = str "=" then decide (cmp = 0)
  else if c.operator = str "!=" then decide (cmp ≠ 0)
  else if c.operator = str ">" then decide (cmp > 0)
  else if c.operator = str ">=" then decide (cmp ≥ 0)
  else if c.operator = str "<" then decide (cmp < 0)
  else if c.operator = str "<=" then decide (cmp ≤ 0)
  else if c.operator = str "~>" then c.matchesPessimistic version
  else false

/-- `Constraints.Matches`: AND over all clauses, vacuously true when
empty. -/
def constraintsMatch (cs : List Constraint) (version : SemVer) : Bool :=
  cs.all (fun c => c.Matches version)

/-- `Constraints.MatchesString`: an unparsable version never matches. -/
def MatchesString (cs : List Constraint) (versionStr : Str) : Bool :=
  match NewVersion versionStr with
  | none => false
  | some version => constraintsMatch cs version

/-! ## Comparator (`internal/version/comparator.go`) -/

/-- The conversion loop of `SortVersions`: parse every string, any failure
is fatal. -/
def parseAll : List Str → Option (List SemVer)
  | [] => some []
  | v :: rest =>
    match NewVersion v with
    | none => none
    | some sv =>
      match parseAll rest with
      | none => none
      | some svs => some (sv :: svs)

/-- `SortVersions`: parse every string, sort ascending with
`semver.Collection` (`Compare < 0`; `sort.Sort` is not stable, any sort
realises it), and emit the canonical renderings latest-first. -/
def SortVersions (versions : List Str) : Option (List Str) :=
  match parseAll versions with
  | none => none
  | some semverVersions =>
    let sorted := semverVersions.insertionSort (fun a b => SemVer.compare a b < 0)
    some (sorted.map SemVer.render).reverse

/-! ## Strategy engine (`internal/version/strategy.go`) -/

/-- The distinct error outcomes of `SelectVersion` (the Go code returns
distinguishable `fmt.Errorf` messages). -/
inductive SelErr where
  | noAvailableVersions
  | noMatchingConstraints
  | unknownStrategy
  | invalidCurrentVersion
  | noMatchingMajor
deriving DecidableEq, Repr

deriving instance DecidableEq for Except

/-- `filterVersionsByConstraints`. -/
def filterVersionsByConstraints (versions : List Str) (constraints : List Constraint) : List Str :=
  if constraints = [] then versions
  else versions.filter (fun v => MatchesString constraints v)

/-- The scan inside `selectMinorVersion`: first candidate (in list order)
that parses and shares the current major version; unparsable candidates
are skipped. -/
def selectMinorLoop (currentMajor : Nat) : List Str → Except SelErr Str
  | [] => .error .noMatchingMajor
  | availableStr :: rest =>
    match NewVersion availableStr with
    | none => selectMinorLoop currentMajor rest
    | some available =>
      if available.major = currentMajor then .ok availableStr
      else selectMinorLoop currentMajor rest

/-- `selectMinorVersion`. -/
def selectMinorVersion (currentVersion : Str) (availableVersions : List Str) : Except SelErr Str :=
  match NewVersion currentVersion with
  | none => .error .invalidCurrentVersion
  | some current => selectMinorLoop current.major availableVersions

/-- `SelectVersion`. -/
def SelectVersion (currentVersion : Str) (availableVersions : List Str)
    (strategy : Str) (constraints : List Constraint) : Except SelErr Str :=
  if availableVersions = [] then .error .noAvailableVersions
  else
    let candidateVersions :=
      if 0 < constraints.length then filterVersionsByConstraints availableVersions constraints
      else availableVersions
    if 0 < constraints.length ∧ candidateVersions = [] then .error .noMatchingConstraints
    else if strategy = str "latest" then .ok (candidateVersions.headD [])
    else if strategy = str "minor" then selectMinorVersion currentVersion candidateVersions
    else .error .unknownStrategy

/-! ## Parallel fetcher post-processing (`internal/registry/fetcher.go`,
`FetchVersions` lines 132-149)

After a successful registry fetch the fetcher extracts the version strings
and sorts them; when `SortVersions` fails (any unparsable entry) the code
keeps the original, unsorted list and still succeeds. -/
def fetchSortVersions (versionStrings : List Str) : List Str :=
  match SortVersions versionStrings with
  | some sortedVersions => sortedVersions
  | none => versionStrings

/-! ## File updater (`internal/updater/updater.go`)

`findStringInContent` scans every position of the content for the
attribute name followed by a run of spaces, tabs and equals signs and then
the value.  (Where the Go code would slice past the end of the string the
model simply reports a non-match.) -/

/-- The check `findStringInContent` performs at a single position. -/
def attrValueAt (attr value s : Str) : Bool :=
  attr.isPrefixOf s &&
    value.isPrefixOf ((s.drop attr.length).dropWhile (fun c => c = ' ' || c = '\t' || c = '='))

def fsicGo (attr value : Str) : Str → Option Nat
  | [] => none
  | c :: rest =>
    if attrValueAt attr value (c :: rest) then some 0
    else (fsicGo attr value rest).map (· + 1)

/-- `findStringInContent`: position of the first attribute/value match. -/
def findStringInContent (content attr value : Str) : Option Nat :=
  fsicGo attr value content

/-- The 500-character proximity check of `findModuleBlock`: `s` is the
content suffix starting at the matched source attribute. -/
def hasVersionInWindow (version s : Str) : Bool :=
  (findStringInContent (s.take 500) (str "version") ('"' :: version ++ ['"'])).isSome

/-- `findModuleBlock` on a content suffix (the Go function carries an
absolute `startPos`; dropping the prefix and offsetting the result is the
same thing).  The loop advances to `realIdx + 1` when the window check
fails, i.e. recurses on the suffix one past the match.  Fuel bounds the
number of iterations; `length + 1` is always enough because every
iteration drops at least one character. -/
def findModuleBlockGo (source version : Str) : Nat → Str → Option Nat
  | 0, _ => none
  | fuel + 1, searchContent =>
    match findStringInContent searchContent (str "source") ('"' :: source ++ ['"']) with
    | none => none
    | some idx =>
      if hasVersionInWindow version (searchContent.drop idx) then some idx
      else
        match findModuleBlockGo source version fuel (searchContent.drop (idx + 1)) with
        | none => none
        | some j => some (idx + 1 + j)

/-- `findModuleBlock content startPos source version`. -/
def findModuleBlock (content : Str) (startPos : Nat) (source version : Str) : Option Nat :=
  (findModuleBlockGo source version ((content.drop startPos).length + 1)
      (content.drop startPos)).map (startPos + ·)

/-- The loop of `countOccurrences`: count matches, restarting one past
each found position. -/
def countOccurrencesGo (source version : Str) : Nat → Str → Nat
  | 0, _ => 0
  | fuel + 1, s =>
    match findModuleBlockGo source version (s.length + 1) s with
    | none => 0
    | some idx => 1 + countOccurrencesGo source version fuel (s.drop (idx + 1))

/-- `countOccurrences`. -/
def countOccurrences (content source version : Str) : Nat :=
  countOccurrencesGo source version (content.length + 1) content

/-- Specification-side count: a position matches when the source
attribute/value pair sits there and a version attribute with the old value
occurs within the following 500 characters; `specWindowCount` counts the
matching positions of the content. -/
def windowMatchAt (source version s : Str) : Bool :=
  attrValueAt (str "source") ('"' :: source ++ ['"']) s && hasVersionInWindow version s

def specWindowCount (source version : Str) : Str → Nat
  | [] => 0
  | c :: rest =>
    (if windowMatchAt source version (c :: rest) then 1 else 0) + specWindowCount source version rest

/-! ## Version replacer (`internal/updater/replacer.go`) -/

/-- Match `version\s*=\s*"old"` at the head of `s`; whitespace is RE2
`\s`, munched maximally (equivalent to the regex since the character after
a maximal run cannot extend it).  Returns the length of the match. -/
def matchVersionAssign (old : Str) (s : Str) : Option Nat :=
  if (str "version").isPrefixOf s then
    let s1 := s.drop 7
    let w1 := (s1.takeWhile regexWs).length
    match s1.drop w1 with
    | '=' :: s2 =>
      let w2 := (s2.takeWhile regexWs).length
      if ('"' :: old ++ ['"']).isPrefixOf (s2.drop w2) then
        some (7 + w1 + 1 + w2 + (old.length + 2))
      else none
    | _ => none
  else none

/-- `fmt.Sprintf("version = \"%s\"", new)`: the canonical replacement. -/
def versionCanon (new : Str) : Str := str "version = " ++ '"' :: new ++ ['"']

/-- `versionPattern.ReplaceAllString`: leftmost non-overlapping matches of
the version-assignment pattern, each replaced by the canonical text. -/
def replaceAllVersionGo (old new : Str) : Nat → Str → Str
  | 0, s => s
  | _ + 1, [] => []
  | fuel + 1, c :: rest =>
    match matchVersionAssign old (c :: rest) with
    | some n => versionCanon new ++ replaceAllVersionGo old new fuel ((c :: rest).drop n)
    | none => c :: replaceAllVersionGo old new fuel rest

def replaceAllVersion (old new s : Str) : Str := replaceAllVersionGo old new (s.length + 1) s

/-- Does a version assignment with the old value occur anywhere in `s`? -/
def versionAssignOccurs (old : Str) : Str → Bool
  | [] => false
  | c :: rest => (matchVersionAssign old (c :: rest)).isSome || versionAssignOccurs old rest

/-- Match `source\s*=\s*"source"` at the head of `s`. -/
def matchSourceAttrAt (source s : Str) : Bool :=
  if (str "source").isPrefixOf s then
    let s1 := s.drop 6
    let w1 := (s1.takeWhile regexWs).length
    match s1.drop w1 with
    | '=' :: s2 =>
      let w2 := (s2.takeWhile regexWs).length
      ('"' :: source ++ ['"']).isPrefixOf (s2.drop w2)
    | _ => false
  else false

def sourceAttrOccurs (source : Str) : Str → Bool
  | [] => false
  | c :: rest => matchSourceAttrAt source (c :: rest) || sourceAttrOccurs source rest

/-- Match the block pattern
`module\s+"([^"]+)"\s+\{([^}]*source\s*=\s*"src"[^}]*)\}` at the head of
`s`.  Since neither `[^}]*` can cross a brace, a match extends exactly to
the first closing brace after the opening one, and succeeds when the text
in between contains a source assignment with the wanted value.  All the
greedy pieces are followed by a character they cannot consume, so maximal
munch coincides with the regex semantics.  Returns block name, block
content and total match length. -/
def matchBlockAt (source s : Str) : Option (Str × Str × Nat) :=
  if (str "module").isPrefixOf s then
    let s1 := s.drop 6
    let w1 := (s1.takeWhile regexWs).length
    if w1 = 0 then none
    else
      match s1.drop w1 with
      | '"' :: s2 =>
        let name := s2.takeWhile (fun c => c ≠ '"')
        if name = [] then none
        else
          match s2.drop name.length with
          | '"' :: s3 =>
            let w2 := (s3.takeWhile regexWs).length
            if w2 = 0 then none
            else
              match s3.drop w2 with
              | '{' :: s4 =>
                let inner := s4.takeWhile (fun c => c ≠ '}')
                match s4.drop inner.length with
                | '}' :: _ =>
                  if sourceAttrOccurs source inner then
                    some (name, inner, 6 + w1 + 1 + name.length + 1 + w2 + 1 + inner.length + 1)
                  else none
                | _ => none
              | _ => none
          | _ => none
      | _ => none
  else none

/-- `pattern.FindAllStringSubmatchIndex`: scan left to right, emitting
non-overlapping matches (the replacement loop only ever uses the captured
name and block content). -/
def findBlocksGo (source : Str) : Nat → Str → List (Str × Str)
  | 0, _ => []
  | _ + 1, [] => []
  | fuel + 1, c :: rest =>
    match matchBlockAt source (c :: rest) with
    | some (name, inner, len) => (name, inner) :: findBlocksGo source fuel ((c :: rest).drop len)
    | none => findBlocksGo source fuel rest

def findBlocks (source content : Str) : List (Str × Str) :=
  findBlocksGo source (content.length + 1) content

/-- `fmt.Sprintf("module \"%s\" {%s}", name, inner)`. -/
def mkBlock (name inner : Str) : Str :=
  str "module " ++ '"' :: name ++ '"' :: ' ' :: '{' :: inner ++ ['}']

def replaceFirstGo (old new : Str) : Str → Str
  | [] => []
  | c :: rest =>
    if old.isPrefixOf (c :: rest) then new ++ (c :: rest).drop old.length
    else c :: replaceFirstGo old new rest

/-- `strings.Replace(s, old, new, 1)`. -/
def replaceFirst (s old new : Str) : Str :=
  if old = [] then new ++ s else replaceFirstGo old new s

/-- `SimpleVersionReplacer.Replace`: find the module blocks carrying the
source; then, processing matches last to first, rewrite the version
assignments inside each block body and substitute the rebuilt block text
for the first occurrence of the original block text. -/
def simpleReplace (source old new content : Str) : Str :=
  (findBlocks source content).reverse.foldl
    (fun result m =>
      let newBlockContent := replaceAllVersion old new m.2
      if newBlockContent ≠ m.2 then
        replaceFirst result (mkBlock m.1 m.2) (mkBlock m.1 newBlockContent)
      else result)
    content

/-- `FileUpdater.Update`, with the file system abstracted to the file's
content: the reported count, and the new content when a write happens
(write errors are out of scope). -/
def updateFile (source old new content : Str) : Nat × Option Str :=
  let countBefore := countOccurrences content source old
  if countBefore = 0 then (0, none)
  else
    let updated := simpleReplace source old new content
    if updated = content then (0, none)
    else (countBefore, some updated)

/-- `FileUpdater.Count` on the file's content. -/
def countFile (content source oldVersion : Str) : Nat :=
  countOccurrences content source oldVersion

/-- Claim-side reading of C3: the number of module declaration blocks
carrying the source whose own textual span contains a version assignment
equal to the old version. -/
def blockScopedCount (source oldVersion content : Str) : Nat :=
  ((findBlocks source content).filter (fun m => versionAssignOccurs oldVersion m.2)).length

/-! ## Disk cache store (`internal/cache/disk_store.go`)

Time is an explicit `Nat` (`time.Now()` at each call site), values are
strings, and the in-memory map plus the cache directory are association
lists passed explicitly.  Directory-read order cannot matter: file names
are unique per directory and a record's logical key determines its file
name. -/

structure Entry where
  key : Str
  value : Str
  expiresAt : Nat
  createdAt : Nat
  ttl : Nat
deriving DecidableEq, Repr

/-- `Entry.IsExpired`: `time.Now().After(ExpiresAt)`. -/
def Entry.isExpired (e : Entry) (now : Nat) : Bool := e.expiresAt < now

/-- Association-list lookup (Go map read). -/
def lookupA {α : Type} (k : Str) : List (Str × α) → Option α
  | [] => none
  | (k0, v0) :: rest => if k0 = k then some v0 else lookupA k rest

/-- Association-list insert-or-replace (Go map write). -/
def upsertA {α : Type} (k : Str) (v : α) : List (Str × α) → List (Str × α)
  | [] => [(k, v)]
  | (k0, v0) :: rest => if k0 = k then (k, v) :: rest else (k0, v0) :: upsertA k v rest

/-- Association-list delete (Go `delete(m, k)`). -/
def deleteA {α : Type} (k : Str) (m : List (Str × α)) : List (Str × α) :=
  m.filter (fun p => p.1 ≠ k)

/-- The unsafe characters `hashKey` replaces. -/
def unsafeChars : Str := ['/', '\\', ':', '*', '?', '"', '<', '>', '|', '\x00']

/-- `hashKey`: first 32 characters of the key, path-unsafe characters
replaced by underscores.  (Go truncates the first 32 bytes and walks runes;
for the ASCII keys this program builds the two coincide.) -/
def hashKey (key : Str) : Str :=
  (key.take 32).map (fun ch => if ch ∈ unsafeChars then '_' else ch)

/-- The cache file name for a key. -/
def cacheFileName (key : Str) : Str := hashKey key ++ str ".json"

/-- `DiskStore`: in-memory entries, plus the cache directory as a map from
file name to the decoded record stored in that file. -/
structure DiskStoreState where
  entries : List (Str × Entry)
  disk : List (Str × Entry)
deriving DecidableEq, Repr

def emptyStore : DiskStoreState := ⟨[], []⟩

inductive CacheErr where
  | emptyKey
  | writeFailed
deriving DecidableEq, Repr

/-- `DiskStore.Set`.  `diskOk` is the outcome of `writeEntryToDisk`
(`os.WriteFile` can fail); on failure the code deletes the just-inserted
in-memory entry and surfaces the error. -/
def setOp (diskOk : Bool) (st : DiskStoreState) (now : Nat) (key value : Str) (ttl : Nat) :
    DiskStoreState × Option CacheErr :=
  if key = [] then (st, some .emptyKey)
  else
    let entry : Entry := ⟨key, value, now + ttl, now, ttl⟩
    let entries1 := upsertA key entry st.entries
    if diskOk then ({ entries := entries1, disk := upsertA (cacheFileName key) entry st.disk }, none)
    else ({ entries := deleteA key entries1, disk := st.disk }, some .writeFailed)

/-- `DiskStore.Get`: absent (`none`) for missing or expired keys. -/
def getOp (st : DiskStoreState) (now : Nat) (key : Str) : Option Str :=
  match lookupA key st.entries with
  | none => none
  | some entry => if entry.isExpired now then none else some entry.value

/-- `DiskStore.loadFromDisk` as performed by `NewDiskStore` on a fresh
instance over an existing cache directory: each decoded record is stored
under its recorded logical key. -/
def restartStore (disk : List (Str × Entry)) : DiskStoreState :=
  { entries := disk.foldl (fun m fe => upsertA fe.2.key fe.2 m) [], disk := disk }

/-- A sequence of `Set` calls with successful persistence. -/
def applyWrites (now ttl : Nat) (writes : List (Str × Str)) (st : DiskStoreState) : DiskStoreState :=
  writes.foldl (fun s kv => (setOp true s now kv.1 kv.2 ttl).1) st

/-! ## Rewrite relation for the frame property of `Replace`

`Rw old new s t` holds when `t` is `s` with some non-overlapping
version-assignment texts `version⟨ws⟩=⟨ws⟩"old"` replaced by the canonical
`version = "new"` and every other character copied verbatim. -/

inductive Rw (old new : Str) : Str → Str → Prop where
  | nil : Rw old new [] []
  | cons (c : Char) {s t : Str} : Rw old new s t → Rw old new (c :: s) (c :: t)
  | rw {w1 w2 s t : Str} (h1 : w1.all regexWs) (h2 : w2.all regexWs) (h : Rw old new s t) :
      Rw old new (str "version" ++ w1 ++ '=' :: w2 ++ '"' :: old ++ '"' :: s)
        (versionCanon new ++ t)

/-! ## Claim-side definitions for C1

The claim determines the `~>` upper bound from the dot count of the
version literal as originally written, extracted whitespace-tolerantly
(so `~>1` and `~> 1` are claimed to behave alike). -/

/-- The version literal of a pessimistic constraint expression: everything
after the two operator characters, whitespace-trimmed. -/
def claimVersionLiteral (expr : Str) : Str :=
  goTrimSpace ((goTrimSpace expr).drop 2)

/-- The claim's upper bound: one dot-separated component gives the next
major; two or three give the next minor. -/
def claimPessUpper (lit : Str) (cv : SemVer) : SemVer :=
  if countChar lit '.' = 0 then sprintfVersion (cv.major + 1) 0 0
  else sprintfVersion cv.major (cv.minor + 1) 0

/-! ## Concrete contents used by counterexamples and witnesses -/

/-- A file whose only block with source `x/y/z` declares version `9.9.9`,
followed by a block with a different source declaring `0.1.0` within 500
characters of the first block's source attribute. -/
def exC3 : Str :=
  str "module \"a\" \x7b\n  source = \"x/y/z\"\n  version = \"9.9.9\"\n\x7d\nmodule \"b\" \x7b\n  source = \"other\"\n  version = \"0.1.0\"\n\x7d\n"

/-- A single-block file whose version attribute has two spaces before the
equals sign. -/
def exC6 : Str := str "module \"a\" \x7bsource = \"S\" version  = \"0.1.0\"\x7d"

/-- What the C6 claim predicts: only the version value changes. -/
def exC6claim : Str := str "module \"a\" \x7bsource = \"S\" version  = \"0.2.0\"\x7d"

/-- What the code produces: the spacing is normalised. -/
def exC6actual : Str := str "module \"a\" \x7bsource = \"S\" version = \"0.2.0\"\x7d"

/-- A block whose body embeds the full text of a later block: the body of
`zz` ends with exactly the text of the stand-alone block that follows. -/
def b1C8 : Str :=
  str "module \"zz\" \x7b junk module \"a\" \x7b source = \"S\" version = \"1.0.0\" \x7d"

def tC8 : Str := str "module \"a\" \x7b source = \"S\" version = \"1.0.0\" \x7d"

def exC8 : Str := b1C8 ++ '\n' :: tC8

/-- The file content after the first update of `exC8`: the copy embedded
in `zz` was rewritten, the stand-alone block kept the old version. -/
def exC8after : Str :=
  str "module \"zz\" \x7b junk module \"a\" \x7b source = \"S\" version = \"2.0.0\" \x7d" ++
    '\n' :: tC8

/-- Witness file for C9: two blocks with the same source and different
declared versions. -/
def exC9A : Str := str "# header\n"
def exC9C1 : Str := str "\n  source = \"x/y/z\"\n  version = \"0.1.0\"\n"
def exC9M : Str := str "\n"
def exC9C2 : Str := str "\n  source = \"x/y/z\"\n  version = \"0.3.0\"\n"
def exC9Z : Str := str "\n"
def exC9 : Str :=
  exC9A ++ mkBlock (str "one") exC9C1 ++ exC9M ++ mkBlock (str "two") exC9C2 ++ exC9Z

/-! ## Association-list lemmas -/

theorem lookupA_upsertA_self {α : Type} (k : Str) (v : α) (m : List (Str × α)) :
    lookupA k (upsertA k v m) = some v := by
  induction m with
  | nil => simp [upsertA, lookupA]
  | cons p rest ih =>
    obtain ⟨k0, v0⟩ := p
    by_cases h : k0 = k
    · simp [upsertA, h, lookupA]
    · simp [upsertA, h, lookupA, ih]

theorem lookupA_upsertA_ne {α : Type} {k k2 : Str} (v : α) (m : List (Str × α))
    (h : k2 ≠ k) : lookupA k2 (upsertA k v m) = lookupA k2 m := by
  induction m with
  | nil => simp [upsertA, lookupA, Ne.symm h]
  | cons p rest ih =>
    obtain ⟨k0, v0⟩ := p
    by_cases h0 : k0 = k
    · subst h0
      simp [upsertA, lookupA, Ne.symm h]
    · simp [upsertA, h0, lookupA, ih]

theorem lookupA_deleteA_self {α : Type} (k : Str) (m : List (Str × α)) :
    lookupA k (deleteA k m) = none := by
  induction m with
  | nil => simp [deleteA, lookupA]
  | cons p rest ih =>
    obtain ⟨k0, v0⟩ := p
    by_cases h0 : k0 = k
    · subst h0
      simpa [deleteA, lookupA] using ih
    · simpa [deleteA, lookupA, h0] using ih

theorem lookupA_deleteA_ne {α : Type} {k k2 : Str} (m : List (Str × α))
    (h : k2 ≠ k) : lookupA k2 (deleteA k m) = lookupA k2 m := by
  induction m with
  | nil => simp [deleteA, lookupA]
  | cons p rest ih =>
    obtain ⟨k0, v0⟩ := p
    by_cases h0 : k0 = k
    · subst h0
      have h2 : ¬ (k0 = k2) := fun hh => h hh.symm
      simp [deleteA, lookupA, h2] at ih ⊢
      exact ih
    · by_cases h2 : k0 = k2
      · subst h2
        simp [deleteA, lookupA, h0]
      · simp [deleteA, lookupA, h0, h2] at ih ⊢
        exact ih

theorem upsertA_of_not_mem {α : Type} (k : Str) (v : α) (m : List (Str × α))
    (h : k ∉ m.map Prod.fst) : upsertA k v m = m ++ [(k, v)] := by
  induction m with
  | nil => simp [upsertA]
  | cons p rest ih =>
    obtain ⟨k0, v0⟩ := p
    simp only [List.map_cons, List.mem_cons] at h
    push_neg at h
    simp [upsertA, Ne.symm h.1, ih h.2]

/-! ## Cache persistence (claims C2 and C4) -/

theorem setOp_true_state (st : DiskStoreState) (now : Nat) (key value : Str) (ttl : Nat)
    (hk : key ≠ []) :
    (setOp true st now key value ttl).1 =
      { entries := upsertA key ⟨key, value, now + ttl, now, ttl⟩ st.entries,
        disk := upsertA (cacheFileName key) ⟨key, value, now + ttl, now, ttl⟩ st.disk } := by
  simp [setOp, hk]

theorem applyWrites_disk (now ttl : Nat) (writes : List (Str × Str)) :
    ∀ st0 : DiskStoreState,
    (∀ kv ∈ writes, kv.1 ≠ ([] : Str)) →
    (∀ kv ∈ writes, cacheFileName kv.1 ∉ st0.disk.map Prod.fst) →
    (writes.map (fun kv => cacheFileName kv.1)).Nodup →
    (applyWrites now ttl writes st0).disk =
      st0.disk ++ writes.map
        (fun kv => (cacheFileName kv.1, (⟨kv.1, kv.2, now + ttl, now, ttl⟩ : Entry))) := by
  induction writes with
  | nil => intro st0 _ _ _; simp [applyWrites]
  | cons kv ws ih =>
    intro st0 hne hfresh hnodup
    have hk : kv.1 ≠ ([] : Str) := hne kv (by simp)
    have hstep : applyWrites now ttl (kv :: ws) st0 =
        applyWrites now ttl ws (setOp true st0 now kv.1 kv.2 ttl).1 := by
      simp [applyWrites]
    have hdisk1 : (setOp true st0 now kv.1 kv.2 ttl).1.disk =
        st0.disk ++ [(cacheFileName kv.1, (⟨kv.1, kv.2, now + ttl, now, ttl⟩ : Entry))] := by
      rw [setOp_true_state st0 now kv.1 kv.2 ttl hk]
      exact upsertA_of_not_mem _ _ _ (hfresh kv (by simp))
    rw [hstep, ih ((setOp true st0 now kv.1 kv.2 ttl).1)
      (fun w hw => hne w (by simp [hw]))
      (fun w hw => by
        rw [hdisk1]
        simp only [List.map_append, List.mem_append, List.map_cons, List.map_nil]
        rintro (hmem | hmem)
        · exact hfresh w (by simp [hw]) hmem
        · have heq : cacheFileName w.1 = cacheFileName kv.1 := by simpa using hmem
          have hmem2 : cacheFileName w.1 ∈ ws.map (fun kv2 => cacheFileName kv2.1) :=
            List.mem_map_of_mem _ hw
          rw [heq] at hmem2
          exact (List.nodup_cons.mp hnodup).1 hmem2)
      (List.nodup_cons.mp hnodup).2, hdisk1]
    simp

theorem load_preserve (records : List (Str × Entry)) (m : List (Str × Entry)) (k : Str)
    (h : ∀ r ∈ records, r.2.key ≠ k) :
    lookupA k (records.foldl (fun m0 r => upsertA r.2.key r.2 m0) m) = lookupA k m := by
  induction records generalizing m with
  | nil => simp
  | cons r rs ih =>
    simp only [List.foldl_cons]
    rw [ih _ (fun r0 h0 => h r0 (by simp [h0])),
      lookupA_upsertA_ne _ _ (fun hh => h r (by simp) hh.symm)]

theorem lookupA_load (records : List (Str × Entry)) (m0 : List (Str × Entry))
    (hnodup : (records.map (fun r => r.2.key)).Nodup) :
    ∀ fe ∈ records,
      lookupA fe.2.key (records.foldl (fun m r => upsertA r.2.key r.2 m) m0) = some fe.2 := by
  induction records generalizing m0 with
  | nil => intro fe h; simp at h
  | cons r rs ih =>
    intro fe hmem
    rcases List.mem_cons.mp hmem with h | h
    · subst h
      simp only [List.foldl_cons]
      rw [load_preserve rs _ fe.2.key
        (fun r0 h0 => by
          intro hh
          have hm : r0.2.key ∈ rs.map (fun r2 => r2.2.key) := List.mem_map_of_mem _ h0
          rw [hh] at hm
          exact (List.nodup_cons.mp hnodup).1 hm)]
      exact lookupA_upsertA_self _ _ _
    · simp only [List.foldl_cons]
      exact ih _ (List.nodup_cons.mp hnodup).2 fe h

/-- C2, amended: writes through `DiskStore.Set` persist across a restart
and occupy one on-disk record each, provided the keys are non-empty and
their 32-character filesystem-safe derivations (`hashKey`) are pairwise
distinct; without that proviso two keys sharing their first 32 characters
share one record and the earlier value is lost (see the counterexample). -/
theorem claim_C2_persistence (now ttl : Nat) (writes : List (Str × Str))
    (hne : ∀ kv ∈ writes, kv.1 ≠ ([] : Str))
    (hnodup : (writes.map (fun kv => cacheFileName kv.1)).Nodup) :
    (applyWrites now ttl writes emptyStore).disk.length = writes.length ∧
    ∀ kv ∈ writes,
      getOp (restartStore (applyWrites now ttl writes emptyStore).disk) now kv.1 = some kv.2 := by
  have hdisk := applyWrites_disk now ttl writes emptyStore hne (by simp [emptyStore]) hnodup
  constructor
  · rw [hdisk]
    simp [emptyStore]
  · intro kv hkv
    rw [hdisk]
    simp only [emptyStore, List.nil_append]
    have hkeys : ((writes.map (fun kv2 =>
        (cacheFileName kv2.1, (⟨kv2.1, kv2.2, now + ttl, now, ttl⟩ : Entry)))).map
          (fun r => r.2.key)) = writes.map (fun kv2 => kv2.1) := by
      simp [List.map_map, Function.comp]
    have hnodup2 : ((writes.map (fun kv2 =>
        (cacheFileName kv2.1, (⟨kv2.1, kv2.2, now + ttl, now, ttl⟩ : Entry)))).map
          (fun r => r.2.key)).Nodup := by
      rw [hkeys]
      refine List.Nodup.of_map cacheFileName ?_
      have : (writes.map (fun kv2 => kv2.1)).map cacheFileName =
          writes.map (fun kv2 => cacheFileName kv2.1) := by
        simp [List.map_map, Function.comp]
      rw [this]
      exact hnodup
    have hmem : (cacheFileName kv.1, (⟨kv.1, kv.2, now + ttl, now, ttl⟩ : Entry)) ∈
        writes.map (fun kv2 =>
          (cacheFileName kv2.1, (⟨kv2.1, kv2.2, now + ttl, now, ttl⟩ : Entry))) :=
      List.mem_map_of_mem _ hkv
    have := lookupA_load _ [] hnodup2 _ hmem
    simp only [restartStore, getOp]
    rw [this]
    simp [Entry.isExpired]

/-- C2 witness: two distinct short keys, written then read back through a
restarted store. -/
theorem claim_C2_persistence_witness :
    ((∀ kv ∈ ([(str "modA", str "1.0.0"), (str "modB", str "2.0.0")] : List (Str × Str)),
        kv.1 ≠ ([] : Str)) ∧
      (([(str "modA", str "1.0.0"), (str "modB", str "2.0.0")] : List (Str × Str)).map
        (fun kv => cacheFileName kv.1)).Nodup) ∧
    ((applyWrites 7 100 [(str "modA", str "1.0.0"), (str "modB", str "2.0.0")]
        emptyStore).disk.length = 2 ∧
      ∀ kv ∈ ([(str "modA", str "1.0.0"), (str "modB", str "2.0.0")] : List (Str × Str)),
        getOp (restartStore (applyWrites 7 100
          [(str "modA", str "1.0.0"), (str "modB", str "2.0.0")] emptyStore).disk) 7 kv.1 =
          some kv.2) :=
  ⟨⟨by decide, by decide⟩,
    claim_C2_persistence 7 100 [(str "modA", str "1.0.0"), (str "modB", str "2.0.0")]
      (by decide) (by decide)⟩

/-- C2 counterexample: two distinct keys sharing their first 32 characters
map to the same cache file; the second `Set` overwrites the first key's
record, only one physical record exists, and after a restart the first
key's value is gone even though the live store still had it. -/
theorem claim_C2_counterexample :
    (str "aaaaaaaaaaaaaaaaaaaaaaaaaaaaaaaa" ≠ str "aaaaaaaaaaaaaaaaaaaaaaaaaaaaaaaab") ∧
    hashKey (str "aaaaaaaaaaaaaaaaaaaaaaaaaaaaaaaa") =
      hashKey (str "aaaaaaaaaaaaaaaaaaaaaaaaaaaaaaaab") ∧
    (applyWrites 0 100
      [(str "aaaaaaaaaaaaaaaaaaaaaaaaaaaaaaaa", str "v1"),
       (str "aaaaaaaaaaaaaaaaaaaaaaaaaaaaaaaab", str "v2")] emptyStore).disk.length = 1 ∧
    getOp (applyWrites 0 100
      [(str "aaaaaaaaaaaaaaaaaaaaaaaaaaaaaaaa", str "v1"),
       (str "aaaaaaaaaaaaaaaaaaaaaaaaaaaaaaaab", str "v2")] emptyStore) 0
      (str "aaaaaaaaaaaaaaaaaaaaaaaaaaaaaaaa") = some (str "v1") ∧
    getOp (restartStore (applyWrites 0 100
      [(str "aaaaaaaaaaaaaaaaaaaaaaaaaaaaaaaa", str "v1"),
       (str "aaaaaaaaaaaaaaaaaaaaaaaaaaaaaaaab", str "v2")] emptyStore).disk) 0
      (str "aaaaaaaaaaaaaaaaaaaaaaaaaaaaaaaa") = none := by
  refine ⟨by decide, by decide, by decide, by decide, by decide⟩

/-- C4, amended: when persisting fails, `DiskStore.Set` surfaces the error,
leaves the disk untouched and removes the key from the in-memory map
entirely (it deletes the freshly inserted entry rather than restoring a
previously stored one); entries under other keys are unaffected. -/
theorem claim_C4_rollback (st : DiskStoreState) (now : Nat) (key value : Str) (ttl : Nat)
    (hk : key ≠ ([] : Str)) :
    (setOp false st now key value ttl).2 = some CacheErr.writeFailed ∧
    (setOp false st now key value ttl).1.disk = st.disk ∧
    lookupA key (setOp false st now key value ttl).1.entries = none ∧
    ∀ k2, k2 ≠ key →
      lookupA k2 (setOp false st now key value ttl).1.entries = lookupA k2 st.entries := by
  refine ⟨by simp [setOp, hk], by simp [setOp, hk], ?_, ?_⟩
  · simp only [setOp, hk, if_neg, if_false]
    simpa using lookupA_deleteA_self key _
  · intro k2 h2
    simp only [setOp, hk, if_neg, if_false]
    have hdel : lookupA k2 (deleteA key (upsertA key ⟨key, value, now + ttl, now, ttl⟩ st.entries)) =
        lookupA k2 (upsertA key ⟨key, value, now + ttl, now, ttl⟩ st.entries) :=
      lookupA_deleteA_ne (upsertA key ⟨key, value, now + ttl, now, ttl⟩ st.entries) h2
    simpa [hdel] using lookupA_upsertA_ne _ st.entries h2

/-- C4 witness: a failing overwrite of an existing key. -/
theorem claim_C4_rollback_witness :
    (str "k" ≠ ([] : Str)) ∧
    ((setOp false ((setOp true emptyStore 0 (str "k") (str "v1") 100).1) 0
        (str "k") (str "v2") 100).2 = some CacheErr.writeFailed ∧
      (setOp false ((setOp true emptyStore 0 (str "k") (str "v1") 100).1) 0
        (str "k") (str "v2") 100).1.disk =
        ((setOp true emptyStore 0 (str "k") (str "v1") 100).1).disk ∧
      lookupA (str "k") (setOp false ((setOp true emptyStore 0 (str "k") (str "v1") 100).1) 0
        (str "k") (str "v2") 100).1.entries = none ∧
      ∀ k2, k2 ≠ str "k" →
        lookupA k2 (setOp false ((setOp true emptyStore 0 (str "k") (str "v1") 100).1) 0
          (str "k") (str "v2") 100).1.entries =
          lookupA k2 ((setOp true emptyStore 0 (str "k") (str "v1") 100).1).entries) :=
  ⟨by decide,
    claim_C4_rollback ((setOp true emptyStore 0 (str "k") (str "v1") 100).1) 0
      (str "k") (str "v2") 100 (by decide)⟩

/-- C4 counterexample: a value previously stored under the key does not
remain visible after a failed `Set` of the same key — the rollback deletes
the key outright, so `Get` flips from the old value to absent. -/
theorem claim_C4_counterexample :
    getOp ((setOp true emptyStore 0 (str "k") (str "v1") 100).1) 0 (str "k") =
      some (str "v1") ∧
    getOp ((setOp false ((setOp true emptyStore 0 (str "k") (str "v1") 100).1) 0
      (str "k") (str "v2") 100).1) 0 (str "k") = none := by
  refine ⟨by decide, by decide⟩

/-! ## Fetcher sorting (claims C5 and C10) -/

theorem parseAll_none_of_mem {vs : List Str} {s : Str} (hmem : s ∈ vs)
    (h : NewVersion s = none) : parseAll vs = none := by
  induction vs with
  | nil => simp at hmem
  | cons v rest ih =>
    rcases List.mem_cons.mp hmem with h0 | h0
    · subst h0
      simp [parseAll, h]
    · cases hv : NewVersion v <;> simp [parseAll, hv, ih h0]

/-- C5, amended: when the fetched version list contains an unparsable
entry the fetch still does not fail, but `SortVersions` fails as a whole
and `FetchVersions` falls back to recording the original list unchanged:
nothing is sorted and the unparsable entries are retained, not dropped. -/
theorem claim_C5_unsorted_fallback (vs : List Str)
    (h : ∃ s ∈ vs, NewVersion s = none) :
    fetchSortVersions vs = vs := by
  obtain ⟨s, hmem, hs⟩ := h
  simp [fetchSortVersions, SortVersions, parseAll_none_of_mem hmem hs]

/-- C5 witness: a list with one unparsable entry comes back verbatim. -/
theorem claim_C5_unsorted_fallback_witness :
    (∃ s ∈ [str "1.0.0", str "not-semver", str "2.0.0"], NewVersion s = none) ∧
    fetchSortVersions [str "1.0.0", str "not-semver", str "2.0.0"] =
      [str "1.0.0", str "not-semver", str "2.0.0"] :=
  ⟨by decide, claim_C5_unsorted_fallback _ (by decide)⟩

/-- C5 counterexample: the claim predicts the parseable remainder sorted
descending (`["2.0.0", "1.0.0"]`); the code returns the original unsorted
list with the unparsable entry still in it. -/
theorem claim_C5_counterexample :
    fetchSortVersions [str "1.0.0", str "not-semver", str "2.0.0"] =
      [str "1.0.0", str "not-semver", str "2.0.0"] ∧
    fetchSortVersions [str "1.0.0", str "not-semver", str "2.0.0"] ≠
      [str "2.0.0", str "1.0.0"] ∧
    str "not-semver" ∈ fetchSortVersions [str "1.0.0", str "not-semver", str "2.0.0"] ∧
    NewVersion (str "not-semver") = none := by
  refine ⟨by decide, by decide, by decide, by decide⟩

theorem parseAll_forall₂ {vs : List Str} {svs : List SemVer} (h : parseAll vs = some svs) :
    List.Forall₂ (fun s sv => NewVersion s = some sv) vs svs := by
  induction vs generalizing svs with
  | nil =>
    simp only [parseAll, Option.some.injEq] at h
    subst h
    exact .nil
  | cons v rest ih =>
    simp only [parseAll] at h
    cases hv : NewVersion v with
    | none => rw [hv] at h; cases h
    | some sv =>
      rw [hv] at h
      cases hr : parseAll rest with
      | none => rw [hr] at h; cases h
      | some svs0 =>
        rw [hr] at h
        simp only [Option.some.injEq] at h
        subst h
        exact .cons hv (ih hr)

/-- C10: `SortVersions` canonicalises as it sorts — on a list whose
entries all parse, it succeeds and returns a permutation of the canonical
renderings (`Version.String()`) of the parsed inputs, not of the input
strings as written. -/
theorem claim_C10_canonical (vs : List Str) (svs : List SemVer)
    (h : parseAll vs = some svs) :
    ∃ out, SortVersions vs = some out ∧
      out.Perm (svs.map SemVer.render) ∧
      List.Forall₂ (fun s sv => NewVersion s = some sv) vs svs := by
  have hout : SortVersions vs =
      some (((svs.insertionSort (fun a b => SemVer.compare a b < 0)).map
        SemVer.render).reverse) := by
    simp [SortVersions, h]
  refine ⟨_, hout, ?_, parseAll_forall₂ h⟩
  exact (List.reverse_perm _).trans ((List.perm_insertionSort _ _).map _)

/-- C10 witness: `"v1.2.3"` is listed back as its canonical rendering
`"1.2.3"`, not as written. -/
theorem claim_C10_canonical_witness :
    (parseAll [str "v1.2.3", str "1.0"] =
      some [⟨1, 2, 3, [], []⟩, ⟨1, 0, 0, [], []⟩]) ∧
    (∃ out, SortVersions [str "v1.2.3", str "1.0"] = some out ∧
      out.Perm (([⟨1, 2, 3, [], []⟩, ⟨1, 0, 0, [], []⟩] : List SemVer).map SemVer.render) ∧
      List.Forall₂ (fun s sv => NewVersion s = some sv) [str "v1.2.3", str "1.0"]
        [⟨1, 2, 3, [], []⟩, ⟨1, 0, 0, [], []⟩]) :=
  ⟨by decide, claim_C10_canonical _ _ (by decide)⟩

/-! ## Version selection (claim C7) -/

theorem selectMinorLoop_find (maj : Nat) (l : List Str) :
    selectMinorLoop maj l =
      match l.find? (fun s => decide ((NewVersion s).map SemVer.major = some maj)) with
      | some w => .ok w
      | none => .error .noMatchingMajor := by
  induction l with
  | nil => simp [selectMinorLoop]
  | cons a rest ih =>
    cases hv : NewVersion a with
    | none => simp [selectMinorLoop, hv, List.find?_cons, ih]
    | some av =>
      by_cases hm : av.major = maj
      · simp [selectMinorLoop, hv, hm, List.find?_cons]
      · simp [selectMinorLoop, hv, hm, List.find?_cons, ih]

/-- C7, amended: on a NON-EMPTY candidate list, `SelectVersion` with the
`minor` strategy and no constraints returns the first candidate whose
major equals the current version's major, fails with the no-matching-major
error when none shares it, and fails with the invalid-version error when
the current version is unparsable.  (On an empty candidate list the
no-available-versions check fires first instead — see the
counterexample.) -/
theorem claim_C7_minor (current : Str) (cands : List Str) (hne : cands ≠ []) :
    SelectVersion current cands (str "minor") [] =
      (match NewVersion current with
       | none => .error .invalidCurrentVersion
       | some cv =>
         match cands.find? (fun s => decide ((NewVersion s).map SemVer.major = some cv.major)) with
         | some w => .ok w
         | none => .error .noMatchingMajor) := by
  unfold SelectVersion
  rw [if_neg hne]
  simp only [List.length_nil, Nat.lt_irrefl, false_and, if_false]
  rw [if_neg (by decide : ¬ (str "minor" = str "latest"))]
  simp only [if_true, if_pos rfl]
  unfold selectMinorVersion
  cases hv : NewVersion current with
  | none => rfl
  | some cv => exact selectMinorLoop_find cv.major cands

/-- C7 witness: the worked example from the specification. -/
theorem claim_C7_minor_witness :
    (([str "2.0.0", str "1.5.2", str "1.5.1", str "1.0.0"] : List Str) ≠ []) ∧
    SelectVersion (str "1.2.3") [str "2.0.0", str "1.5.2", str "1.5.1", str "1.0.0"]
      (str "minor") [] = .ok (str "1.5.2") :=
  ⟨by decide,
    (claim_C7_minor (str "1.2.3") [str "2.0.0", str "1.5.2", str "1.5.1", str "1.0.0"]
      (by decide)).trans (by decide)⟩

/-- C7 counterexample: on an empty candidate list — vacuously a
descending-sorted list in which no candidate shares the major — the code
fails with the no-available-versions error, not the no-matching-major
error the claim requires; likewise an unparsable current version with an
empty list does not produce the invalid-version error. -/
theorem claim_C7_counterexample :
    SelectVersion (str "1.2.3") [] (str "minor") [] = .error .noAvailableVersions ∧
    (Except.error SelErr.noAvailableVersions : Except SelErr Str) ≠
      .error .noMatchingMajor ∧
    SelectVersion (str "bogus") [] (str "minor") [] = .error .noAvailableVersions ∧
    NewVersion (str "bogus") = none ∧
    (Except.error SelErr.noAvailableVersions : Except SelErr Str) ≠
      .error .invalidCurrentVersion := by
  refine ⟨by decide, by decide, by decide, by decide, by decide⟩

/-! ## Pessimistic constraints (claim C1) -/

theorem goIsSpace_of_regexWs {c : Char} (h : regexWs c = true) : goIsSpace c = true := by
  simp only [regexWs, goIsSpace, Bool.or_eq_true, decide_eq_true_eq] at *
  tauto

theorem dropWhile_eq_self_of_all {p : Char → Bool} {s : Str}
    (h : s.all (fun c => !p c)) : s.dropWhile p = s := by
  cases s with
  | nil => rfl
  | cons a rest =>
    simp only [List.all_cons, Bool.and_eq_true, Bool.not_eq_true'] at h
    simp [List.dropWhile_cons, h.1]

theorem goTrimSpace_no_edges {s : Str}
    (h1 : ∀ c, s.head? = some c → goIsSpace c = false)
    (h2 : ∀ c, s.getLast? = some c → goIsSpace c = false) : goTrimSpace s = s := by
  cases hs : s with
  | nil => rfl
  | cons a rest =>
    have ha : goIsSpace a = false := h1 a (by rw [hs]; rfl)
    have hstep : (a :: rest).dropWhile goIsSpace = a :: rest := by
      simp [List.dropWhile_cons, ha]
    unfold goTrimSpace
    rw [← hs] at hstep ⊢
    rw [hstep]
    cases hr : s.reverse with
    | nil => simp_all
    | cons x xs =>
      have hx : s.getLast? = some x := by
        rw [← List.head?_reverse, hr]
        rfl
      have hxf : goIsSpace x = false := h2 x hx
      rw [List.dropWhile_cons]
      rw [if_neg (by simp [hxf])]
      rw [← hr, List.reverse_reverse]

theorem head?_mem {s : Str} {c : Char} (hc : s.head? = some c) : c ∈ s := by
  cases s with
  | nil => cases hc
  | cons a r =>
    simp only [List.head?_cons, Option.some.injEq] at hc
    subst hc
    exact List.mem_cons_self a r

theorem all_not_space_getLast {lit : Str}
    (h : lit.all (fun c => !goIsSpace c)) :
    ∀ c, lit.getLast? = some c → goIsSpace c = false := by
  intro c hc
  obtain ⟨hl, heq⟩ := List.mem_getLast?_eq_getLast (Option.mem_def.mpr hc)
  have hmem : c ∈ lit := heq ▸ List.getLast_mem hl
  simpa using List.all_eq_true.mp h c hmem

theorem goTrimSpace_spaced (lit : Str) (hne : lit ≠ [])
    (h : lit.all (fun c => !goIsSpace c)) :
    goTrimSpace (str "~> " ++ lit) = str "~> " ++ lit := by
  apply goTrimSpace_no_edges
  · intro c hc
    rw [show (str "~> " ++ lit).head? = some '~' from rfl] at hc
    cases hc
    decide
  · intro c hc
    rw [List.getLast?_append] at hc
    cases hg : lit.getLast? with
    | none => exact absurd (List.getLast?_eq_none_iff.mp hg) hne
    | some y =>
      rw [hg] at hc
      simp only [Option.or] at hc
      cases hc
      exact all_not_space_getLast h _ hg

theorem goTrimSpace_unspaced (lit : Str) (hne : lit ≠ [])
    (h : lit.all (fun c => !goIsSpace c)) :
    goTrimSpace (str "~>" ++ lit) = str "~>" ++ lit := by
  apply goTrimSpace_no_edges
  · intro c hc
    rw [show (str "~>" ++ lit).head? = some '~' from rfl] at hc
    cases hc
    decide
  · intro c hc
    rw [List.getLast?_append] at hc
    cases hg : lit.getLast? with
    | none => exact absurd (List.getLast?_eq_none_iff.mp hg) hne
    | some y =>
      rw [hg] at hc
      simp only [Option.or] at hc
      cases hc
      exact all_not_space_getLast h _ hg

theorem fieldsGo_no_space (lit : Str) (hne : lit ≠ [])
    (h : lit.all (fun c => !goIsSpace c)) :
    ∀ acc, fieldsGo lit acc = [acc.reverse ++ lit] := by
  induction lit with
  | nil => exact absurd rfl hne
  | cons c rest ih =>
    intro acc
    simp only [List.all_cons, Bool.and_eq_true, Bool.not_eq_true'] at h
    cases hr : rest with
    | nil =>
      simp [fieldsGo, h.1]
    | cons d rest2 =>
      rw [← hr]
      have hrne : rest ≠ [] := by rw [hr]; simp
      simp only [fieldsGo, h.1, Bool.false_eq_true, if_false]
      rw [ih hrne (by simpa using h.2) (c :: acc)]
      simp

theorem goFields_spaced (lit : Str) (hne : lit ≠ [])
    (h : lit.all (fun c => !goIsSpace c)) :
    goFields (str "~> " ++ lit) = [str "~>", lit] := by
  show fieldsGo ('~' :: '>' :: ' ' :: lit) [] = [str "~>", lit]
  rw [show fieldsGo ('~' :: '>' :: ' ' :: lit) [] = str "~>" :: fieldsGo lit [] by
    simp +decide [fieldsGo]]
  rw [fieldsGo_no_space lit hne h []]
  simp

theorem goFields_unspaced (lit : Str) (hne : lit ≠ [])
    (h : lit.all (fun c => !goIsSpace c)) :
    goFields (str "~>" ++ lit) = [str "~>" ++ lit] := by
  show fieldsGo ('~' :: '>' :: lit) [] = [str "~>" ++ lit]
  rw [show fieldsGo ('~' :: '>' :: lit) [] = fieldsGo lit ['>', '~'] by
    simp +decide [fieldsGo]]
  rw [fieldsGo_no_space lit hne h ['>', '~']]
  rfl

theorem ParseConstraint_spaced (lit : Str) (hne : lit ≠ [])
    (h : lit.all (fun c => !goIsSpace c)) :
    ParseConstraint (str "~> " ++ lit) =
      match NewVersion lit with
      | none => none
      | some v => some ⟨str "~>", v, str "~> " ++ lit⟩ := by
  have hlit : lit.dropWhile regexWs = lit :=
    dropWhile_eq_self_of_all (by
      rw [List.all_eq_true] at h ⊢
      intro c hc
      have := h c hc
      simp only [Bool.not_eq_true'] at this ⊢
      by_contra hb
      rw [Bool.not_eq_false] at hb
      rw [goIsSpace_of_regexWs hb] at this
      cases this)
  unfold ParseConstraint
  rw [goTrimSpace_spaced lit hne h]
  rw [if_neg (by simp [str])]
  have hfind : constraintOps.find? (fun op => op.isPrefixOf (str "~> " ++ lit)) =
      some (str "~>") := by
    simp +decide [constraintOps, List.find?, str, List.isPrefixOf]
  rw [hfind]
  have hdrop : ((str "~> " ++ lit).drop (str "~>").length).dropWhile regexWs = lit := by
    show ((' ' :: lit).dropWhile regexWs) = lit
    rw [List.dropWhile_cons]
    simp only [show regexWs ' ' = true from rfl, if_true]
    exact hlit
  dsimp only
  rw [hdrop]
  rw [if_neg hne]
  rw [goTrimSpace_no_edges
    (fun c hc => by
      have hmem : c ∈ lit := head?_mem hc
      simpa using List.all_eq_true.mp h c hmem)
    (all_not_space_getLast h)]

theorem ParseConstraint_unspaced (lit : Str) (hne : lit ≠ [])
    (h : lit.all (fun c => !goIsSpace c)) :
    ParseConstraint (str "~>" ++ lit) =
      match NewVersion lit with
      | none => none
      | some v => some ⟨str "~>", v, str "~>" ++ lit⟩ := by
  have hlit : lit.dropWhile regexWs = lit :=
    dropWhile_eq_self_of_all (by
      rw [List.all_eq_true] at h ⊢
      intro c hc
      have := h c hc
      simp only [Bool.not_eq_true'] at this ⊢
      by_contra hb
      rw [Bool.not_eq_false] at hb
      rw [goIsSpace_of_regexWs hb] at this
      cases this)
  unfold ParseConstraint
  rw [goTrimSpace_unspaced lit hne h]
  rw [if_neg (by simp [str])]
  have hfind : constraintOps.find? (fun op => op.isPrefixOf (str "~>" ++ lit)) =
      some (str "~>") := by
    simp +decide [constraintOps, List.find?, str, List.isPrefixOf]
  rw [hfind]
  have hdrop : ((str "~>" ++ lit).drop (str "~>").length).dropWhile regexWs = lit := by
    show lit.dropWhile regexWs = lit
    exact hlit
  dsimp only
  rw [hdrop]
  rw [if_neg hne]
  rw [goTrimSpace_no_edges
    (fun c hc => by
      have hmem : c ∈ lit := head?_mem hc
      simpa using List.all_eq_true.mp h c hmem)
    (all_not_space_getLast h)]

theorem Matches_eq_pessimistic (c : Constraint) (hop : c.operator = str "~>") (v : SemVer) :
    c.Matches v = c.matchesPessimistic v := by
  unfold Constraint.Matches
  rw [hop]
  simp +decide

theorem matchesPessimistic_iff (c : Constraint) (v : SemVer) (upper : SemVer)
    (hupper : (let parts := goFields c.original
      if parts.length < 2 then sprintfVersion c.version.major (c.version.minor + 1) 0
      else if countChar (parts.getLastD []) '.' = 0 then
        sprintfVersion (c.version.major + 1) 0 0
      else sprintfVersion c.version.major (c.version.minor + 1) 0) = upper) :
    (c.matchesPessimistic v = true ↔
      0 ≤ v.compare c.version ∧ v.compare upper < 0) := by
  unfold Constraint.matchesPessimistic
  by_cases hc : v.compare c.version < 0
  · simp only [hc, if_true]
    constructor
    · intro hfalse; cases hfalse
    · rintro ⟨hle, -⟩
      omega
  · simp only [hc, if_false]
    rw [← hupper]
    simp only [decide_eq_true_eq]
    constructor
    · intro hlt
      exact ⟨Int.not_lt.mp hc, hlt⟩
    · rintro ⟨-, hlt⟩
      exact hlt

/-- C1, amended: for a pessimistic constraint whose operator and version
literal are separated by whitespace (`~> lit`), `Matches v` holds iff
`v >= version` and `v` is below the upper bound read off the dot count of
the literal as written (no dot → next major, otherwise next minor) — as
the claim states.  But the tokenization is NOT whitespace-tolerant: for
the no-whitespace spelling (`~>lit`), `strings.Fields` yields a single
field and the code falls back to the next-minor upper bound regardless of
the literal's precision, so `~>1` and `~> 1` do not behave alike. -/
theorem claim_C1_pessimistic (lit : Str) (v : SemVer)
    (hne : lit ≠ []) (hws : lit.all (fun c => !goIsSpace c)) :
    (∀ c, ParseConstraint (str "~> " ++ lit) = some c →
      (c.Matches v = true ↔
        0 ≤ v.compare c.version ∧ v.compare (claimPessUpper lit c.version) < 0)) ∧
    (∀ c, ParseConstraint (str "~>" ++ lit) = some c →
      (c.Matches v = true ↔
        0 ≤ v.compare c.version ∧
          v.compare (sprintfVersion c.version.major (c.version.minor + 1) 0) < 0)) := by
  constructor
  · intro c hc
    rw [ParseConstraint_spaced lit hne hws] at hc
    cases hv : NewVersion lit with
    | none => rw [hv] at hc; cases hc
    | some ver =>
      rw [hv] at hc
      simp only [Option.some.injEq] at hc
      subst hc
      rw [Matches_eq_pessimistic _ rfl]
      exact matchesPessimistic_iff _ v _ (by
        dsimp only
        rw [goFields_spaced lit hne hws]
        rfl)
  · intro c hc
    rw [ParseConstraint_unspaced lit hne hws] at hc
    cases hv : NewVersion lit with
    | none => rw [hv] at hc; cases hc
    | some ver =>
      rw [hv] at hc
      simp only [Option.some.injEq] at hc
      subst hc
      rw [Matches_eq_pessimistic _ rfl]
      exact matchesPessimistic_iff _ v _ (by
        dsimp only
        rw [goFields_unspaced lit hne hws]
        rfl)

/-- C1 witness: the spaced spelling `~> 1.2` at version `1.2.5` and the
unspaced spelling `~>1.2` at the same version. -/
theorem claim_C1_pessimistic_witness :
    ((str "1.2" ≠ ([] : Str)) ∧ (str "1.2").all (fun c => !goIsSpace c)) ∧
    ((∀ c, ParseConstraint (str "~> " ++ str "1.2") = some c →
      (c.Matches ⟨1, 2, 5, [], []⟩ = true ↔
        0 ≤ SemVer.compare ⟨1, 2, 5, [], []⟩ c.version ∧
          SemVer.compare ⟨1, 2, 5, [], []⟩ (claimPessUpper (str "1.2") c.version) < 0)) ∧
     (∀ c, ParseConstraint (str "~>" ++ str "1.2") = some c →
      (c.Matches ⟨1, 2, 5, [], []⟩ = true ↔
        0 ≤ SemVer.compare ⟨1, 2, 5, [], []⟩ c.version ∧
          SemVer.compare ⟨1, 2, 5, [], []⟩
            (sprintfVersion c.version.major (c.version.minor + 1) 0) < 0))) :=
  ⟨⟨by decide, by decide⟩,
    claim_C1_pessimistic (str "1.2") ⟨1, 2, 5, [], []⟩ (by decide) (by decide)⟩

/-- C1 counterexample: the constraint written `~>1` (no whitespace) parses
fine; the claim's rule (one dot-separated component in the literal `1` →
upper bound `2.0.0`) predicts that `1.5.0` matches, but the code rejects
it, while the spaced spelling `~> 1` accepts it: the two spellings do not
behave alike and the claimed iff fails at `("~>1", 1.5.0)`. -/
theorem claim_C1_counterexample :
    ParseConstraint (str "~>1") = some ⟨str "~>", ⟨1, 0, 0, [], []⟩, str "~>1"⟩ ∧
    claimVersionLiteral (str "~>1") = str "1" ∧
    (0 ≤ SemVer.compare ⟨1, 5, 0, [], []⟩ ⟨1, 0, 0, [], []⟩ ∧
      SemVer.compare ⟨1, 5, 0, [], []⟩
        (claimPessUpper (str "1") ⟨1, 0, 0, [], []⟩) < 0) ∧
    Constraint.Matches ⟨str "~>", ⟨1, 0, 0, [], []⟩, str "~>1"⟩ ⟨1, 5, 0, [], []⟩ = false ∧
    ParseConstraint (str "~> 1") = some ⟨str "~>", ⟨1, 0, 0, [], []⟩, str "~> 1"⟩ ∧
    Constraint.Matches ⟨str "~>", ⟨1, 0, 0, [], []⟩, str "~> 1"⟩ ⟨1, 5, 0, [], []⟩ = true := by
  refine ⟨by decide, by decide, ⟨by decide, by decide⟩, by decide, by decide, by decide⟩

/-! ## The rewrite-only frame of `Replace` (claims C6, C8, C9) -/

theorem isPrefixOf_decomp : ∀ {p s : Str}, p.isPrefixOf s = true → s = p ++ s.drop p.length := by
  intro p
  induction p with
  | nil => intro s _; simp
  | cons a p' ih =>
    intro s h
    cases s with
    | nil => simp [List.isPrefixOf] at h
    | cons b s' =>
      simp only [List.isPrefixOf, Bool.and_eq_true, beq_iff_eq] at h
      obtain ⟨rfl, h2⟩ := h
      simpa using ih h2

theorem isPrefixOf_append_self : ∀ (p x : Str), p.isPrefixOf (p ++ x) = true := by
  intro p
  induction p with
  | nil => intro x; simp [List.isPrefixOf]
  | cons a p' ih => intro x; simp [List.isPrefixOf, ih]

theorem Rw_refl (old new : Str) : ∀ s, Rw old new s s := by
  intro s
  induction s with
  | nil => exact .nil
  | cons c rest ih => exact .cons c ih

theorem Rw_append {old new : Str} :
    ∀ {s t u v : Str}, Rw old new s t → Rw old new u v → Rw old new (s ++ u) (t ++ v) := by
  intro s t u v h1 h2
  induction h1 with
  | nil => simpa using h2
  | cons c h ih => exact .cons c ih
  | rw hw1 hw2 h ih =>
    have hstep : Rw old new _ _ := Rw.rw hw1 hw2 ih
    simpa [List.append_assoc, List.cons_append] using hstep

theorem take_takeWhile_length (p : Char → Bool) : ∀ l : Str,
    l.take (l.takeWhile p).length = l.takeWhile p := by
  intro l
  induction l with
  | nil => rfl
  | cons a t ih =>
    by_cases hp : p a
    · simp [List.takeWhile_cons, hp, ih]
    · simp [List.takeWhile_cons, hp]

/-- Splitting a list at the end of its whitespace run. -/
theorem split_at_takeWhile (p : Char → Bool) (l : Str) :
    l = l.takeWhile p ++ l.drop (l.takeWhile p).length := by
  conv_lhs => rw [← List.take_append_drop (l.takeWhile p).length l]
  rw [take_takeWhile_length]

theorem matchVersionAssign_decomp {old s : Str} {n : Nat}
    (h : matchVersionAssign old s = some n) :
    ∃ w1 w2 rest, w1.all regexWs = true ∧ w2.all regexWs = true ∧
      s = str "version" ++ w1 ++ '=' :: w2 ++ '"' :: old ++ '"' :: rest ∧
      n = 7 + w1.length + 1 + w2.length + (old.length + 2) := by
  unfold matchVersionAssign at h
  split at h
  case isFalse => cases h
  case isTrue hp =>
    dsimp only at h
    split at h
    case h_2 hne => cases h
    case h_1 s2 heq =>
      split at h
      case isFalse => cases h
      case isTrue hq =>
        have hn : n = 7 + ((s.drop 7).takeWhile regexWs).length + 1 +
            (s2.takeWhile regexWs).length + (old.length + 2) := by
          injection h with h2
          omega
        refine ⟨(s.drop 7).takeWhile regexWs, s2.takeWhile regexWs,
          (s2.drop (s2.takeWhile regexWs).length).drop (old.length + 2),
          List.all_takeWhile, List.all_takeWhile, ?_, hn⟩
        have hs : s = str "version" ++ s.drop 7 := by
          have := isPrefixOf_decomp hp
          simpa using this
        have hs1 : s.drop 7 = (s.drop 7).takeWhile regexWs ++ ('=' :: s2) := by
          have hsp := split_at_takeWhile regexWs (s.drop 7)
          rw [heq] at hsp
          exact hsp
        have hquoted : s2.drop (s2.takeWhile regexWs).length =
            ('"' :: old ++ ['"']) ++ (s2.drop (s2.takeWhile regexWs).length).drop
              (old.length + 2) := by
          have := isPrefixOf_decomp hq
          simpa using this
        have hs2 : s2 = s2.takeWhile regexWs ++
            ('"' :: old ++ '"' :: (s2.drop (s2.takeWhile regexWs).length).drop
              (old.length + 2)) := by
          conv_lhs => rw [split_at_takeWhile regexWs s2]
          rw [hquoted]
          simp
        conv_lhs => rw [hs, hs1, hs2]
        simp

theorem Rw_replaceAllVersionGo (old new : Str) : ∀ (fuel : Nat) (s : Str), s.length < fuel →
    Rw old new s (replaceAllVersionGo old new fuel s) := by
  intro fuel
  induction fuel with
  | zero => intro s h; omega
  | succ fuel ih =>
    intro s h
    cases s with
    | nil => exact Rw.nil
    | cons c rest =>
      cases hm : matchVersionAssign old (c :: rest) with
      | none =>
        rw [show replaceAllVersionGo old new (fuel + 1) (c :: rest) =
          c :: replaceAllVersionGo old new fuel rest by simp [replaceAllVersionGo, hm]]
        exact .cons c (ih rest (by simp only [List.length_cons] at h; omega))
      | some nn =>
        obtain ⟨w1, w2, rest2, hw1, hw2, hdecomp, hnn⟩ := matchVersionAssign_decomp hm
        have hview : (str "version" ++ w1 ++ '=' :: w2 ++ '"' :: old ++ '"' :: rest2 : Str) =
            (str "version" ++ w1 ++ '=' :: w2 ++ '"' :: old ++ ['"']) ++ rest2 := by
          simp [List.cons_append, List.append_assoc]
        have hplen : ((str "version" ++ w1 ++ '=' :: w2 ++ '"' :: old ++ ['"']) : Str).length =
            nn := by
          simp only [List.length_append, List.length_cons, List.length_nil,
            show (str "version").length = 7 from rfl, hnn]
          omega
        have hdrop : (c :: rest).drop nn = rest2 := by
          rw [hdecomp, hview, ← hplen]
          exact List.drop_left _ _
        have hlen2 : rest2.length < fuel := by
          have hclen : (c :: rest).length = nn + rest2.length := by
            rw [hdecomp, hview, List.length_append, hplen]
          omega
        rw [show replaceAllVersionGo old new (fuel + 1) (c :: rest) =
          versionCanon new ++ replaceAllVersionGo old new fuel ((c :: rest).drop nn) by
            simp [replaceAllVersionGo, hm]]
        rw [hdrop, hdecomp]
        exact Rw.rw hw1 hw2 (ih rest2 hlen2)

theorem Rw_replaceAllVersion (old new s : Str) : Rw old new s (replaceAllVersion old new s) :=
  Rw_replaceAllVersionGo old new (s.length + 1) s (Nat.lt_succ_self _)

theorem replaceFirstGo_cases (old0 new0 : Str) : ∀ s : Str,
    replaceFirstGo old0 new0 s = s ∨
      ∃ a b, s = a ++ old0 ++ b ∧ replaceFirstGo old0 new0 s = a ++ new0 ++ b := by
  intro s
  induction s with
  | nil => left; rfl
  | cons c rest ih =>
    by_cases hp : old0.isPrefixOf (c :: rest) = true
    · right
      refine ⟨[], (c :: rest).drop old0.length, ?_, ?_⟩
      · simpa using isPrefixOf_decomp hp
      · simp [replaceFirstGo, hp]
    · rcases ih with h | ⟨a, b, hab, hres⟩
      · left
        simp [replaceFirstGo, hp, h]
      · right
        refine ⟨c :: a, b, by simp [hab], ?_⟩
        simp [replaceFirstGo, hp, hres]

theorem replaceFirst_cases (s old0 new0 : Str) :
    replaceFirst s old0 new0 = s ∨
      ∃ a b, s = a ++ old0 ++ b ∧ replaceFirst s old0 new0 = a ++ new0 ++ b := by
  by_cases hne : old0 = []
  · right
    exact ⟨[], s, by simp [hne], by simp [replaceFirst, hne]⟩
  · unfold replaceFirst
    rw [if_neg hne]
    exact replaceFirstGo_cases old0 new0 s

theorem Rw_mkBlock (old new nm bc : Str) :
    Rw old new (mkBlock nm bc) (mkBlock nm (replaceAllVersion old new bc)) := by
  have hview : ∀ x : Str, mkBlock nm x =
      (str "module " ++ '"' :: nm ++ ['"', ' ', '{']) ++ (x ++ ['}']) := by
    intro x
    simp [mkBlock, List.cons_append, List.append_assoc]
  rw [hview, hview]
  exact Rw_append (Rw_refl old new _)
    (Rw_append (Rw_replaceAllVersion old new bc) (Rw_refl old new _))

theorem Rw_replaceFirst_block (old new res nm bc : Str) :
    Rw old new res (replaceFirst res (mkBlock nm bc) (mkBlock nm (replaceAllVersion old new bc))) := by
  rcases replaceFirst_cases res (mkBlock nm bc) (mkBlock nm (replaceAllVersion old new bc)) with
    h | ⟨a, b, hab, hres⟩
  · rw [h]
    exact Rw_refl old new res
  · rw [hres]
    conv_lhs => rw [hab]
    exact Rw_append (Rw_append (Rw_refl old new a) (Rw_mkBlock old new nm bc)) (Rw_refl old new b)

theorem foldl_rtg (old new : Str) : ∀ (ms : List (Str × Str)) (res : Str),
    Relation.ReflTransGen (Rw old new) res
      (ms.foldl (fun result m =>
        let newBlockContent := replaceAllVersion old new m.2
        if newBlockContent ≠ m.2 then
          replaceFirst result (mkBlock m.1 m.2) (mkBlock m.1 newBlockContent)
        else result) res) := by
  intro ms
  induction ms with
  | nil => intro res; exact .refl
  | cons m ms ih =>
    intro res
    rw [List.foldl_cons]
    refine Relation.ReflTransGen.trans ?_ (ih _)
    dsimp only
    by_cases hg : replaceAllVersion old new m.2 ≠ m.2
    · rw [if_pos hg]
      exact Relation.ReflTransGen.single (Rw_replaceFirst_block old new res m.1 m.2)
    · rw [if_neg hg]

theorem simpleReplace_rtg (source old new content : Str) :
    Relation.ReflTransGen (Rw old new) content (simpleReplace source old new content) := by
  unfold simpleReplace
  exact foldl_rtg old new _ content

/-- C6, amended: when `Update` performs a write, the rewritten content is
reachable from the original by rewrite passes each of which only replaces
non-overlapping `version⟨ws⟩=⟨ws⟩"old"` assignment texts by the canonical
`version = "new"` and copies every other byte verbatim.  In particular
nothing outside version assignments changes, but the whitespace around the
equals sign inside a matched assignment is normalised to single spaces, so
the result is NOT byte-identical outside the version values (see the
counterexample). -/
theorem claim_C6_frame (source old new content : Str) (n : Nat) (u : Str)
    (h : updateFile source old new content = (n, some u)) :
    Relation.ReflTransGen (Rw old new) content u := by
  unfold updateFile at h
  dsimp only at h
  split at h
  · simp at h
  · split at h
    · simp at h
    · have hu : some (simpleReplace source old new content) = some u :=
        congrArg Prod.snd h
      rw [← Option.some.inj hu]
      exact simpleReplace_rtg source old new content

/-- C6 witness: a concrete write, related to its original by the rewrite
relation. -/
theorem claim_C6_frame_witness :
    updateFile (str "S") (str "0.1.0") (str "0.2.0") exC6 = (1, some exC6actual) ∧
    Relation.ReflTransGen (Rw (str "0.1.0") (str "0.2.0")) exC6 exC6actual :=
  ⟨by decide, claim_C6_frame (str "S") (str "0.1.0") (str "0.2.0") exC6 1 exC6actual (by decide)⟩

/-- C6 counterexample: old and new version have the same length, yet the
rewritten file is shorter than the original — a byte outside the matched
version value changed (the doubled space before `=` was collapsed), so the
rewritten file is not byte-identical outside the matched values. -/
theorem claim_C6_counterexample :
    (str "0.1.0").length = (str "0.2.0").length ∧
    updateFile (str "S") (str "0.1.0") (str "0.2.0") exC6 = (1, some exC6actual) ∧
    exC6actual.length ≠ exC6.length ∧
    exC6actual ≠ exC6claim := by
  refine ⟨by decide, by decide, by decide, by decide⟩

/-- C8, amended: `Update` returns 0 and performs no write exactly when the
proximity-window match count is zero or the replacement leaves the content
unchanged.  Re-running `Update` after a successful positive update is NOT
always a no-op: when a matched block's rebuilt text also occurs embedded
inside an earlier block, the first run rewrites the embedded copy, leaves
the old version in place, and a second run reports a positive count and
writes again (see the counterexample). -/
theorem claim_C8_noop_iff (source old new content : Str) :
    updateFile source old new content = (0, none) ↔
      (countOccurrences content source old = 0 ∨
        simpleReplace source old new content = content) := by
  unfold updateFile
  dsimp only
  by_cases h0 : countOccurrences content source old = 0
  · simp [h0]
  · rw [if_neg h0]
    by_cases h1 : simpleReplace source old new content = content
    · simp [h0, h1]
    · simp [h0, h1]

/-- C8 counterexample: `exC8` embeds the full text of its second block
inside the body of its first block.  The first `Update` succeeds with
count 2 and rewrites the file — but `strings.Replace` substitutes the
rebuilt block text at its first occurrence, the embedded copy, so the
stand-alone block keeps the old version.  The second identical `Update`
then returns 2 again and rewrites the file again, not 0. -/
theorem claim_C8_counterexample :
    updateFile (str "S") (str "1.0.0") (str "2.0.0") exC8 = (2, some exC8after) ∧
    (updateFile (str "S") (str "1.0.0") (str "2.0.0") exC8after).1 = 2 ∧
    (updateFile (str "S") (str "1.0.0") (str "2.0.0") exC8after).2.isSome = true ∧
    updateFile (str "S") (str "1.0.0") (str "2.0.0") exC8after ≠ (0, none) := by
  refine ⟨by decide, by decide, by decide, by decide⟩

/-- C8 witness: the no-op characterisation at a concrete content. -/
theorem claim_C8_noop_iff_witness :
    updateFile (str "S") (str "1.0.0") (str "2.0.0") (str "nothing here") = (0, none) ↔
      (countOccurrences (str "nothing here") (str "S") (str "1.0.0") = 0 ∨
        simpleReplace (str "S") (str "1.0.0") (str "2.0.0") (str "nothing here") =
          str "nothing here") :=
  claim_C8_noop_iff (str "S") (str "1.0.0") (str "2.0.0") (str "nothing here")

theorem replaceFirstGo_self (T N R : Str) (hT : T ≠ []) :
    replaceFirstGo T N (T ++ R) = N ++ R := by
  obtain ⟨t, ts, rfl⟩ : ∃ t ts, T = t :: ts := by
    cases T with
    | nil => exact absurd rfl hT
    | cons t ts => exact ⟨t, ts, rfl⟩
  have hpre : (t :: ts).isPrefixOf ((t :: ts) ++ R) = true := isPrefixOf_append_self _ _
  show replaceFirstGo (t :: ts) N (t :: (ts ++ R)) = N ++ R
  rw [show replaceFirstGo (t :: ts) N (t :: (ts ++ R)) =
    N ++ (t :: (ts ++ R)).drop (t :: ts).length by
      simp only [replaceFirstGo]
      rw [if_pos (by simp [hpre])]]
  congr 1
  rw [show ((t :: (ts ++ R)) : Str) = (t :: ts) ++ R by simp]
  exact List.drop_left _ _

theorem replaceFirst_decomp (N : Str) : ∀ (A T R : Str), T ≠ [] →
    (∀ p, p < A.length → T.isPrefixOf ((A ++ T ++ R).drop p) = false) →
    replaceFirst (A ++ T ++ R) T N = A ++ N ++ R := by
  intro A
  induction A with
  | nil =>
    intro T R hT _
    unfold replaceFirst
    rw [if_neg hT]
    simpa using replaceFirstGo_self T N R hT
  | cons a A' ih =>
    intro T R hT hocc
    have h0 : T.isPrefixOf (a :: (A' ++ T ++ R)) = false := by
      have := hocc 0 (by simp)
      simpa using this
    show replaceFirst (a :: (A' ++ T ++ R)) T N = a :: (A' ++ N ++ R)
    unfold replaceFirst
    rw [if_neg hT]
    rw [show replaceFirstGo T N (a :: (A' ++ T ++ R)) =
      a :: replaceFirstGo T N (A' ++ T ++ R) by
        simp only [replaceFirstGo]
        rw [if_neg (by rw [h0]; exact Bool.false_ne_true)]]
    have hrec := ih T R hT (fun p hp => by
      have := hocc (p + 1) (by simp only [List.length_cons]; omega)
      simpa using this)
    unfold replaceFirst at hrec
    rw [if_neg hT] at hrec
    rw [hrec]

/-- C9: in a file consisting of two module blocks with the same source but
different declared versions (the second block's body contains no
`version = "old"` assignment, the first block's body does, and the first
block's text occurs nowhere before its own position), `Update` rewrites
only the version assignments inside the matching block's body and leaves
every other byte — in particular the other block's declared version — in
place. -/
theorem claim_C9_scoping (source old new A M Z n1 C1 n2 C2 : Str)
    (hblocks : findBlocks source (A ++ mkBlock n1 C1 ++ M ++ mkBlock n2 C2 ++ Z) =
      [(n1, C1), (n2, C2)])
    (h2 : replaceAllVersion old new C2 = C2)
    (h1 : replaceAllVersion old new C1 ≠ C1)
    (hocc : ∀ p, p < A.length →
      (mkBlock n1 C1).isPrefixOf
        ((A ++ mkBlock n1 C1 ++ M ++ mkBlock n2 C2 ++ Z).drop p) = false) :
    simpleReplace source old new (A ++ mkBlock n1 C1 ++ M ++ mkBlock n2 C2 ++ Z) =
      A ++ mkBlock n1 (replaceAllVersion old new C1) ++ M ++ mkBlock n2 C2 ++ Z ∧
    Rw old new C1 (replaceAllVersion old new C1) := by
  constructor
  · unfold simpleReplace
    rw [hblocks]
    rw [show ([(n1, C1), (n2, C2)] : List (Str × Str)).reverse = [(n2, C2), (n1, C1)] from rfl]
    rw [List.foldl_cons, List.foldl_cons, List.foldl_nil]
    dsimp only
    rw [if_pos h1, if_neg (by simp [h2])]
    have hT : mkBlock n1 C1 ≠ ([] : Str) := by simp [mkBlock, str]
    have hassoc : A ++ mkBlock n1 C1 ++ M ++ mkBlock n2 C2 ++ Z =
        A ++ mkBlock n1 C1 ++ (M ++ mkBlock n2 C2 ++ Z) := by
      simp [List.append_assoc]
    rw [hassoc]
    rw [replaceFirst_decomp (mkBlock n1 (replaceAllVersion old new C1)) A
      (mkBlock n1 C1) (M ++ mkBlock n2 C2 ++ Z) hT
      (fun p hp => by
        have := hocc p hp
        rw [hassoc] at this
        exact this)]
    simp [List.append_assoc]
  · exact Rw_replaceAllVersion old new C1

/-- C9 witness: a concrete two-block file; only the first block's version
assignment changes. -/
theorem claim_C9_scoping_witness :
    (findBlocks (str "x/y/z") (exC9A ++ mkBlock (str "one") exC9C1 ++ exC9M ++
        mkBlock (str "two") exC9C2 ++ exC9Z) =
      [(str "one", exC9C1), (str "two", exC9C2)] ∧
      replaceAllVersion (str "0.1.0") (str "0.2.0") exC9C2 = exC9C2 ∧
      replaceAllVersion (str "0.1.0") (str "0.2.0") exC9C1 ≠ exC9C1) ∧
    (simpleReplace (str "x/y/z") (str "0.1.0") (str "0.2.0")
        (exC9A ++ mkBlock (str "one") exC9C1 ++ exC9M ++ mkBlock (str "two") exC9C2 ++ exC9Z) =
      exC9A ++ mkBlock (str "one") (replaceAllVersion (str "0.1.0") (str "0.2.0") exC9C1) ++
        exC9M ++ mkBlock (str "two") exC9C2 ++ exC9Z ∧
      Rw (str "0.1.0") (str "0.2.0") exC9C1
        (replaceAllVersion (str "0.1.0") (str "0.2.0") exC9C1)) :=
  ⟨⟨by decide, by decide, by decide⟩,
    claim_C9_scoping (str "x/y/z") (str "0.1.0") (str "0.2.0") exC9A exC9M exC9Z
      (str "one") exC9C1 (str "two") exC9C2 (by decide) (by decide) (by decide)
      (by decide)⟩

/-! ## The window-count characterisation (claim C3) -/

theorem attrValueAt_nil {attr value : Str} (h : attr ≠ []) :
    attrValueAt attr value [] = false := by
  obtain ⟨a, as, rfl⟩ : ∃ a as, attr = a :: as := by
    cases attr with
    | nil => exact absurd rfl h
    | cons a as => exact ⟨a, as, rfl⟩
  rfl

theorem windowMatchAt_nil (source version : Str) :
    windowMatchAt source version [] = false := by
  unfold windowMatchAt
  rw [attrValueAt_nil (by simp [str])]
  rfl

theorem fsicGo_some {attr value : Str} : ∀ {s : Str} {i : Nat},
    fsicGo attr value s = some i →
    attrValueAt attr value (s.drop i) = true ∧
      ∀ j, j < i → attrValueAt attr value (s.drop j) = false := by
  intro s
  induction s with
  | nil => intro i h; cases h
  | cons c rest ih =>
    intro i h
    by_cases ha : attrValueAt attr value (c :: rest) = true
    · rw [show fsicGo attr value (c :: rest) = some 0 by simp [fsicGo, ha]] at h
      cases h
      exact ⟨ha, fun j hj => absurd hj (Nat.not_lt_zero j)⟩
    · rw [show fsicGo attr value (c :: rest) = (fsicGo attr value rest).map (· + 1) by
        simp [fsicGo, ha]] at h
      cases hr : fsicGo attr value rest with
      | none => rw [hr] at h; cases h
      | some i0 =>
        rw [hr] at h
        simp only [Option.map_some', Option.some.injEq] at h
        subst h
        obtain ⟨h1, h2⟩ := ih hr
        refine ⟨by simpa using h1, ?_⟩
        intro j hj
        cases j with
        | zero => simpa using ha
        | succ j0 =>
          rw [List.drop_succ_cons]
          exact h2 j0 (by omega)

theorem fsicGo_none {attr value : Str} (hattr : attr ≠ []) : ∀ {s : Str},
    fsicGo attr value s = none →
    ∀ j, attrValueAt attr value (s.drop j) = false := by
  intro s
  induction s with
  | nil =>
    intro _ j
    rw [List.drop_nil]
    exact attrValueAt_nil hattr
  | cons c rest ih =>
    intro h j
    by_cases ha : attrValueAt attr value (c :: rest) = true
    · rw [show fsicGo attr value (c :: rest) = some 0 by simp [fsicGo, ha]] at h
      cases h
    · rw [show fsicGo attr value (c :: rest) = (fsicGo attr value rest).map (· + 1) by
        simp [fsicGo, ha]] at h
      cases hr : fsicGo attr value rest with
      | some i0 => rw [hr] at h; cases h
      | none =>
        cases j with
        | zero => simpa using ha
        | succ j0 =>
          rw [List.drop_succ_cons]
          exact ih hr j0

theorem findModuleBlockGo_succ (source version : Str) (fuel : Nat) (s : Str) :
    findModuleBlockGo source version (fuel + 1) s =
      match findStringInContent s (str "source") ('"' :: source ++ ['"']) with
      | none => none
      | some idx =>
        if hasVersionInWindow version (s.drop idx) then some idx
        else
          match findModuleBlockGo source version fuel (s.drop (idx + 1)) with
          | none => none
          | some j => some (idx + 1 + j) := rfl

theorem windowMatchAt_eq (source version s : Str) :
    windowMatchAt source version s =
      (attrValueAt (str "source") ('"' :: source ++ ['"']) s &&
        hasVersionInWindow version s) := rfl

theorem fmbGo_spec (source version : Str) : ∀ (fuel : Nat) (s : Str), s.length < fuel →
    (∀ i, findModuleBlockGo source version fuel s = some i →
      windowMatchAt source version (s.drop i) = true ∧
        ∀ j, j < i → windowMatchAt source version (s.drop j) = false) ∧
    (findModuleBlockGo source version fuel s = none →
      ∀ j, windowMatchAt source version (s.drop j) = false) := by
  intro fuel
  induction fuel with
  | zero => intro s h; omega
  | succ fuel ih =>
    intro s hlen
    cases hf : findStringInContent s (str "source") ('"' :: source ++ ['"']) with
    | none =>
      have hall := fsicGo_none (by simp [str]) hf
      have hres : findModuleBlockGo source version (fuel + 1) s = none := by
        rw [findModuleBlockGo_succ, hf]
      constructor
      · intro i hi
        rw [hres] at hi
        cases hi
      · intro _ j
        rw [windowMatchAt_eq, hall j]
        rfl
    | some idx =>
      obtain ⟨hat, hmin⟩ := fsicGo_some hf
      have hsne : s ≠ [] := by
        intro hnil
        rw [hnil] at hf
        cases hf
      by_cases hw : hasVersionInWindow version (s.drop idx) = true
      · have hres : findModuleBlockGo source version (fuel + 1) s = some idx := by
          rw [findModuleBlockGo_succ, hf]
          dsimp only
          rw [if_pos hw]
        constructor
        · intro i hi
          rw [hres] at hi
          cases hi
          refine ⟨by rw [windowMatchAt_eq, hat, hw]; rfl, ?_⟩
          intro j hj
          rw [windowMatchAt_eq, hmin j hj]
          rfl
        · intro hnone
          rw [hres] at hnone
          cases hnone
      · have hwf : hasVersionInWindow version (s.drop idx) = false :=
          Bool.not_eq_true _ ▸ Bool.of_not_eq_true hw
        have hlen2 : (s.drop (idx + 1)).length < fuel := by
          have h1 : 1 ≤ s.length := by
            cases s with
            | nil => exact absurd rfl hsne
            | cons a b => simp
          have h2 : (s.drop (idx + 1)).length = s.length - (idx + 1) := by
            simp
          omega
        obtain ⟨ihs, ihn⟩ := ih (s.drop (idx + 1)) hlen2
        have hjlow : ∀ j, j ≤ idx → windowMatchAt source version (s.drop j) = false := by
          intro j hj
          rcases Nat.lt_or_ge j idx with hlt | hge
          · rw [windowMatchAt_eq, hmin j hlt]
            rfl
          · have : j = idx := by omega
            subst this
            rw [windowMatchAt_eq, hwf]
            simp
        have hexp : findModuleBlockGo source version (fuel + 1) s =
            match findModuleBlockGo source version fuel (s.drop (idx + 1)) with
            | none => none
            | some j => some (idx + 1 + j) := by
          rw [findModuleBlockGo_succ, hf]
          dsimp only
          rw [if_neg hw]
        cases hr : findModuleBlockGo source version fuel (s.drop (idx + 1)) with
        | none =>
          rw [hr] at hexp
          constructor
          · intro i hi
            rw [hexp] at hi
            cases hi
          · intro _ j
            rcases Nat.lt_or_ge j (idx + 1) with hlt | hge
            · exact hjlow j (by omega)
            · have hj : j = (idx + 1) + (j - (idx + 1)) := by omega
              rw [hj, ← List.drop_drop]
              exact ihn hr _
        | some j0 =>
          rw [hr] at hexp
          constructor
          · intro i hi
            rw [hexp] at hi
            cases hi
            obtain ⟨hj1, hj2⟩ := ihs j0 hr
            constructor
            · rw [← List.drop_drop]
              exact hj1
            · intro k hk
              rcases Nat.lt_or_ge k (idx + 1) with hlt | hge
              · exact hjlow k (by omega)
              · have hkeq : k = (idx + 1) + (k - (idx + 1)) := by omega
                rw [hkeq, ← List.drop_drop]
                exact hj2 (k - (idx + 1)) (by omega)
          · intro hnone
            rw [hexp] at hnone
            cases hnone

theorem specWindowCount_zero (source version : Str) : ∀ s : Str,
    (∀ j, windowMatchAt source version (s.drop j) = false) →
    specWindowCount source version s = 0 := by
  intro s
  induction s with
  | nil => intro _; rfl
  | cons c rest ih =>
    intro h
    have h0 : windowMatchAt source version (c :: rest) = false := by simpa using h 0
    show (if windowMatchAt source version (c :: rest) then 1 else 0) +
      specWindowCount source version rest = 0
    rw [h0, ih (fun j => by simpa using h (j + 1))]
    rfl

theorem specWindowCount_first (source version : Str) : ∀ (i : Nat) (s : Str),
    windowMatchAt source version (s.drop i) = true →
    (∀ j, j < i → windowMatchAt source version (s.drop j) = false) →
    specWindowCount source version s = 1 + specWindowCount source version (s.drop (i + 1)) := by
  intro i
  induction i with
  | zero =>
    intro s hm _
    cases s with
    | nil =>
      rw [List.drop_nil] at hm
      rw [windowMatchAt_nil] at hm
      cases hm
    | cons c rest =>
      simp only [List.drop_zero] at hm
      show (if windowMatchAt source version (c :: rest) then 1 else 0) +
        specWindowCount source version rest = 1 + specWindowCount source version rest
      rw [hm]
      rfl
  | succ i0 ih =>
    intro s hm hmin
    cases s with
    | nil =>
      rw [List.drop_nil] at hm
      rw [windowMatchAt_nil] at hm
      cases hm
    | cons c rest =>
      have h0 : windowMatchAt source version (c :: rest) = false := by
        simpa using hmin 0 (by omega)
      rw [List.drop_succ_cons] at hm
      have hrec := ih rest hm (fun j hj => by
        have := hmin (j + 1) (by omega)
        simpa using this)
      show (if windowMatchAt source version (c :: rest) then 1 else 0) +
        specWindowCount source version rest =
        1 + specWindowCount source version ((c :: rest).drop (i0 + 1 + 1))
      rw [h0, List.drop_succ_cons, hrec]
      simp

theorem countOccurrencesGo_succ (source version : Str) (fuel : Nat) (s : Str) :
    countOccurrencesGo source version (fuel + 1) s =
      match findModuleBlockGo source version (s.length + 1) s with
      | none => 0
      | some idx => 1 + countOccurrencesGo source version fuel (s.drop (idx + 1)) := rfl

theorem countGo_spec (source version : Str) : ∀ (fuel : Nat) (s : Str), s.length < fuel →
    countOccurrencesGo source version fuel s = specWindowCount source version s := by
  intro fuel
  induction fuel with
  | zero => intro s h; omega
  | succ fuel ih =>
    intro s hlen
    obtain ⟨hspecS, hspecN⟩ := fmbGo_spec source version (s.length + 1) s (Nat.lt_succ_self _)
    cases hf : findModuleBlockGo source version (s.length + 1) s with
    | none =>
      rw [countOccurrencesGo_succ, hf]
      exact (specWindowCount_zero source version s (hspecN hf)).symm
    | some idx =>
      obtain ⟨hm, hmin⟩ := hspecS idx hf
      have hsne : s ≠ [] := by
        intro hnil
        rw [hnil] at hf
        cases hf
      have hlen2 : (s.drop (idx + 1)).length < fuel := by
        have h1 : 1 ≤ s.length := by
          cases s with
          | nil => exact absurd rfl hsne
          | cons a b => simp
        have h2 : (s.drop (idx + 1)).length = s.length - (idx + 1) := by simp
        omega
      rw [countOccurrencesGo_succ, hf]
      dsimp only
      rw [ih (s.drop (idx + 1)) hlen2]
      exact (specWindowCount_first source version idx s hm hmin).symm

/-- C3, amended: `Count` — and the `n` a writing `Update` reports — equals
the number of positions at which a source attribute with the requested
value is followed, within a 500-character window starting at that
position, by a version attribute equal to the old version.  Matching is
proximity-window based, not scoped to a module block: a block whose own
declared version differs is still counted when another `version = "old"`
assignment lies within 500 characters after its source attribute (see the
counterexample). -/
theorem claim_C3_window_count (content source oldVersion newVersion : Str) :
    countFile content source oldVersion = specWindowCount source oldVersion content ∧
    ∀ n u, updateFile source oldVersion newVersion content = (n, some u) →
      n = specWindowCount source oldVersion content := by
  have hcount : countOccurrences content source oldVersion =
      specWindowCount source oldVersion content :=
    countGo_spec source oldVersion (content.length + 1) content (Nat.lt_succ_self _)
  constructor
  · exact hcount
  · intro n u h
    unfold updateFile at h
    dsimp only at h
    split at h
    · simp at h
    · split at h
      · simp at h
      · have := congrArg Prod.fst h
        simp only at this
        rw [← this]
        exact hcount

/-- C3 witness: a concrete file on which `Count` and a writing `Update`
agree with the window count. -/
theorem claim_C3_window_count_witness :
    (countFile exC6 (str "S") (str "0.1.0") = specWindowCount (str "S") (str "0.1.0") exC6 ∧
      ∀ n u, updateFile (str "S") (str "0.1.0") (str "0.2.0") exC6 = (n, some u) →
        n = specWindowCount (str "S") (str "0.1.0") exC6) ∧
    specWindowCount (str "S") (str "0.1.0") exC6 = 1 :=
  ⟨claim_C3_window_count exC6 (str "S") (str "0.1.0") (str "0.2.0"), by decide⟩

/-- C3 counterexample: in `exC3` the only block with source `x/y/z`
declares version `9.9.9`, and no block with that source declares `0.1.0`
(the block-scoped count demanded by the claim is 0) — yet `Count` returns
1, because the neighbouring block's `version = "0.1.0"` lies within the
500-character window after the first block's source attribute. -/
theorem claim_C3_counterexample :
    countFile exC3 (str "x/y/z") (str "0.1.0") = 1 ∧
    blockScopedCount (str "x/y/z") (str "0.1.0") exC3 = 0 ∧
    (findBlocks (str "x/y/z") exC3).length = 1 := by
  refine ⟨by decide, by decide, by decide⟩

end TfUpdate
